import Mathlib

/- Verification of the checkers engine core: the board model
   (GameBoard/board.py) and the search toolbox (SearchToolBox/search.py).

   Modelling conventions:
   * A board cell holds one of 'w', 'W', 'b', 'B' or None: `Option Piece`.
   * Squares are addressed by integer coordinates `(row, col)`, as in the
     Python code, with the explicit in-bounds test `_InBounds`.
   * The grid is a total map from integer coordinates to cell contents;
     every read of the board in the source is either inside a `range(8)`
     loop or guarded by `_InBounds`, which `getCell` reproduces (an
     out-of-bounds read yields `none`; the source never performs one).
   * Python floats: every numeric literal in `EvaluateFor` (1.0, 1.8, 0.05,
     0.1, 3.5, the division by 2) makes every score an exact multiple of
     1/80, so scores are modelled as integers counted in units of 1/80:
     man = 80, king = 144, centre bonus = 12 - (|7-2r| + |7-2c|),
     mobility = 8 per move of difference.  The rescaling is an order
     isomorphism and the search uses scores only through comparisons.
   * `math.inf` / `-math.inf`: the top and bottom of `WithBot (WithTop ℤ)`.
   * Time limit: the claims under verification concern runs whose time
     budget never expires, so `_TimeRemaining` is modelled as constantly
     true and the `None` ("time up") early returns disappear.
   * The analytics counters (NodesExpanded, NodesGenerated, AlphaBetaPrunes,
     TimeUsed) are write-only accumulators that never influence the chosen
     move or value; the analytics record is omitted from the model.
   * The recursive capture search `dfs_jumps` temporarily mutates the shared
     board and restores it afterwards; the model passes the modified board
     functionally.  Its recursion is driven by a fuel argument starting at
     the number of opponent pieces on the board; each jump removes one
     opponent piece, so the fuel can reach 0 only when no opponent piece is
     left, in which case no further jump exists anyway (made precise in
     `dfsJumps_mem_spec`). -/

inductive Piece where
  | wm | wk | bm | bk
deriving DecidableEq, Repr

inductive Player where
  | w | b
deriving DecidableEq, Repr

/-- The colour ('w' or 'b') of a piece: `piece.lower()` in the source. -/
def Piece.side : Piece → Player
  | .wm => .w
  | .wk => .w
  | .bm => .b
  | .bk => .b

/-- `piece.islower()`: men are lowercase, kings uppercase. -/
def Piece.isLower : Piece → Bool
  | .wm => true
  | .bm => true
  | .wk => false
  | .bk => false

/-- OtherStuff.OpponentOf: 'w' -> 'b', 'b' -> 'w'. -/
def OtherStuff.OpponentOf : Player → Player
  | .w => .b
  | .b => .w

abbrev Pos := ℤ × ℤ

/-- The grid, as the total map from coordinates to cell contents.  The
source's board is an 8x8 list of lists; every read it performs is inside a
`range(8)` loop or behind an `_InBounds` check, which is exactly the reads
`getCell` allows, so values of the map outside the 8x8 window are never
observed. -/
abbrev Grid := Pos → Option Piece

/-- `_InBounds(r, c)`: 0 <= r < 8 and 0 <= c < 8. -/
def InBounds (p : Pos) : Prop :=
  0 ≤ p.1 ∧ p.1 < 8 ∧ 0 ≤ p.2 ∧ p.2 < 8

instance (p : Pos) : Decidable (InBounds p) := by
  unfold InBounds
  infer_instance

/-- Reading `Board[r][c]`; out-of-bounds reads give `none` (the source never
performs one, see `Grid`). -/
def getCell (g : Grid) (p : Pos) : Option Piece :=
  if InBounds p then g p else none

/-- Writing `Board[r][c] = v`. -/
def setCell (g : Grid) (p : Pos) (v : Option Piece) : Grid :=
  fun q => if q = p then v else g q

/-- The squares visited by the `range(8) × range(8)` loops of the source. -/
def allPositions : List Pos :=
  (List.range 8).flatMap (fun r => (List.range 8).map (fun c => (Int.ofNat r, Int.ofNat c)))

/-- GameBoard: the 8x8 grid plus the side to move. -/
structure GameBoard where
  Board : Grid
  PlayerToMove : Player

/-- A move record: start square, landing sequence, captured squares. -/
structure Move where
  start : Pos
  sequence : List Pos
  captures : List Pos
deriving DecidableEq, Repr

/-- `_CreateStartingBoard`: 3 rows of black men on top, 3 rows of white men
at the bottom, on the squares with (r+c) % 2 == 1. -/
def startingGrid : Grid := fun p =>
  if (p.1 + p.2) % 2 = 1 then
    if p.1 < 3 then some .bm
    else if 4 < p.1 then some .wm
    else none
  else none

/-- `GameBoard()`: the starting position, white to move (the default). -/
def startingBoard : GameBoard := ⟨startingGrid, .w⟩

/-- GetPiecesOfPlayer: positions of the player's men and kings, in row-major
scan order. -/
def GameBoard.GetPiecesOfPlayer (b : GameBoard) (player : Player) : List Pos :=
  allPositions.filter (fun q =>
    match getCell b.Board q with
    | none => false
    | some pc => pc.side == player)

/-- Whether a side still has a piece on the board (the `any(...)` scans of
GoalTest). -/
def hasAnyPiece (g : Grid) (player : Player) : Bool :=
  allPositions.any (fun q =>
    match getCell g q with
    | none => false
    | some pc => pc.side == player)

/-- GoalTest: 'b' wins if white has no pieces, then 'w' wins if black has no
pieces, otherwise the game continues. -/
def GameBoard.GoalTest (b : GameBoard) : Option Player :=
  if hasAnyPiece b.Board .w = false then some .b
  else if hasAnyPiece b.Board .b = false then some .w
  else none

/-- `_IsOpponentPiece`: the cell is not None and its colour differs. -/
def IsOpponentPiece : Option Piece → Player → Bool
  | none, _ => false
  | some pc, player => pc.side != player

/-- `_PieceDirections`: men move forward only, kings in all four diagonals. -/
def PieceDirections : Option Piece → List Pos
  | none => []
  | some .wk => [(-1, -1), (-1, 1), (1, -1), (1, 1)]
  | some .bk => [(-1, -1), (-1, 1), (1, -1), (1, 1)]
  | some .wm => [(-1, -1), (-1, 1)]
  | some .bm => [(1, -1), (1, 1)]

/-- The four diagonal directions tried for jumps (the literal list in
`dfs_jumps`; kings and men jump in all four directions). -/
def jumpDirections : List Pos := [(-1, -1), (-1, 1), (1, -1), (1, 1)]

/-- Number of opponent pieces on the board; used only as the fuel of the
jump search (each jump removes one opponent piece, see the header note). -/
def countOpp (g : Grid) (player : Player) : ℕ :=
  allPositions.countP (fun q => IsOpponentPiece (getCell g q) player)

/-- The jumps available in `dfs_jumps` from `cur` on the current board
`g`: for each of the four diagonal directions, the (captured square,
landing square) pair, provided both are in bounds, the adjacent square
holds an opponent piece not yet captured in this sequence, and the landing
square is empty. -/
def jumpCandidates (player : Player) (g : Grid) (cur : Pos) (captured : List Pos) :
    List (Pos × Pos) :=
  jumpDirections.filterMap (fun d =>
    let mid : Pos := (cur.1 + d.1, cur.2 + d.2)
    let land : Pos := (cur.1 + 2 * d.1, cur.2 + 2 * d.2)
    if InBounds mid ∧ InBounds land ∧ (getCell g mid).isSome = true ∧
        getCell g land = none ∧ mid ∉ captured ∧
        IsOpponentPiece (getCell g mid) player = true
    then some (mid, land) else none)

/-- The temporary board change performed for one jump: the piece moves from
`cur` to the landing square and the jumped square is cleared (the source
mutates `self.Board` this way and restores it after the recursive call). -/
def jumpBoard (g : Grid) (cur mid land : Pos) : Grid :=
  setCell (setCell (setCell g land (getCell g cur)) cur none) mid none

/-- `dfs_jumps`: the recursive multi-jump search of GenerateLegalMoves.
From `cur` it tries the four diagonal jumps on the current (temporarily
mutated) board `g`, skipping already captured squares; when no jump is
available and at least one capture was made, it emits the terminal capture
sequence.  The emitted list order is the source's depth-first append order.
(The source also computes an unused `dirs` value here; dead code, omitted.) -/
def dfsJumps (player : Player) (orig : Pos) :
    ℕ → Grid → Pos → List Pos → List Pos → List Move
  | 0, _, _, captured, seq =>
    -- fuel exhausted: only reachable with no opponent piece left on the
    -- board, hence no jump is available (see `dfsJumps_mem_spec`)
    if captured = [] then [] else [⟨orig, seq, captured⟩]
  | fuel + 1, g, cur, captured, seq =>
    let jumps := jumpCandidates player g cur captured
    if jumps = [] then
      if captured = [] then [] else [⟨orig, seq, captured⟩]
    else
      jumps.flatMap (fun ml =>
        dfsJumps player orig fuel (jumpBoard g cur ml.1 ml.2) ml.2
          (captured ++ [ml.1]) (seq ++ [ml.2]))

/-- All terminal capture sequences of the piece on square `s`. -/
def pieceCaptures (g : Grid) (player : Player) (s : Pos) : List Move :=
  dfsJumps player s (countOpp g player) g s [] []

/-- The simple (non-capturing) diagonal steps of the piece `pc` on `s`. -/
def simpleMovesFrom (g : Grid) (s : Pos) (pc : Piece) : List Move :=
  (PieceDirections (some pc)).filterMap (fun d =>
    let t : Pos := (s.1 + d.1, s.2 + d.2)
    if InBounds t ∧ getCell g t = none then some ⟨s, [t], []⟩ else none)

/-- GenerateLegalMoves: all capture sequences of every piece; a piece with a
capture contributes no simple moves (the source tests
`any(move['start'] == (r, c) for move in capture_moves)`, equivalent to this
piece's own capture list being non-empty since a move's start is the square
of the piece that produced it); if any capture exists anywhere only the
captures are returned. -/
def GameBoard.GenerateLegalMoves (b : GameBoard) (player : Player) : List Move :=
  let pieces := b.GetPiecesOfPlayer player
  let captureMoves := pieces.flatMap (fun s => pieceCaptures b.Board player s)
  let allMoves := pieces.flatMap (fun s =>
    if pieceCaptures b.Board player s = [] then
      match getCell b.Board s with
      | some pc => simpleMovesFrom b.Board s pc
      | none => []
    else [])
  if captureMoves = [] then allMoves else captureMoves

/-- The final landing square: `last_r, last_c` after the
`for (tr, tc) in move['sequence']` loop (the start square when the sequence
is empty). -/
def lastLanding (m : Move) : Pos :=
  m.sequence.foldl (fun _ t => t) m.start

/-- Clone: a value copy of the board state (`copy.deepcopy`). -/
def GameBoard.Clone (b : GameBoard) : GameBoard :=
  ⟨b.Board, b.PlayerToMove⟩

/-- ApplyMove: clear the start square, place the moving piece on the final
landing square, clear every captured square, king a man that finished on its
promotion rank, and flip the side to move. -/
def GameBoard.ApplyMove (b : GameBoard) (m : Move) : GameBoard :=
  let nb := b.Clone
  let piece := getCell nb.Board m.start
  let g1 := setCell nb.Board m.start none
  let last := lastLanding m
  let g2 := setCell g1 last piece
  let g3 := m.captures.foldl (fun g c => setCell g c none) g2
  let g4 := if piece = some .wm ∧ last.1 = 0 then setCell g3 last (some .wk) else g3
  let g5 := if piece = some .bm ∧ last.1 = 7 then setCell g4 last (some .bk) else g4
  ⟨g5, OtherStuff.OpponentOf b.PlayerToMove⟩

/-- State-passing embedding of ApplyMove for the frame claim: the state is
the pair (self, nb).  `Clone` copies the value, after which every assignment
of the source writes through `nb` and none through `self`, so the first
component is returned untouched. -/
def GameBoard.ApplyMovePair (self : GameBoard) (m : Move) : GameBoard × GameBoard :=
  let nb := self.Clone
  let piece := getCell nb.Board m.start
  let g1 := setCell nb.Board m.start none
  let last := lastLanding m
  let g2 := setCell g1 last piece
  let g3 := m.captures.foldl (fun g c => setCell g c none) g2
  let g4 := if piece = some .wm ∧ last.1 = 0 then setCell g3 last (some .wk) else g3
  let g5 := if piece = some .bm ∧ last.1 = 7 then setCell g4 last (some .bk) else g4
  (self, ⟨g5, OtherStuff.OpponentOf self.PlayerToMove⟩)

/-- One cell of the piece/centre scan of EvaluateFor: the accumulator is
the pair (my_score, opp_score). -/
def pieceScoreStep (g : Grid) (player : Player) (s : ℤ × ℤ) (q : Pos) : ℤ × ℤ :=
  match getCell g q with
  | none => s
  | some pc =>
    let v : ℤ := (if pc.isLower then 80 else 144) +
      (12 - (|7 - 2 * q.1| + |7 - 2 * q.2|))
    if pc.side == player then (s.1 + v, s.2) else (s.1, s.2 + v)

/-- EvaluateFor, in exact units of 1/80 (see the header note): piece values
80 (man) / 144 (king), centre bonus 12 - (|7-2r| + |7-2c|), own pieces
minus opponent pieces, plus 8 * (own move count - opponent move count). -/
def GameBoard.EvaluateFor (b : GameBoard) (player : Player) : ℤ :=
  let scores := allPositions.foldl (pieceScoreStep b.Board player) (0, 0)
  let myMoves := (b.GenerateLegalMoves player).length
  let oppMoves := (b.GenerateLegalMoves (OtherStuff.OpponentOf player)).length
  (scores.1 - scores.2) + 8 * ((myMoves : ℤ) - (oppMoves : ℤ))

/-- `clearCells g l`: the squares of `l` cleared in order (the
`for (cr, cc) in move['captures']` loop, and the net effect of the capture
squares cleared along a jump search). -/
def clearCells (g : Grid) (l : List Pos) : Grid :=
  l.foldl (fun g q => setCell g q none) g

/-- A jump is available for `player` from square `s` on grid `g`: some
diagonal direction has an in-bounds opponent piece adjacent and an in-bounds
empty landing square behind it.  This is the jump condition of `dfs_jumps`
(the `mid not in captured` skip is subsumed: captured squares are empty on
the boards this predicate is applied to). -/
def JumpAvailable (g : Grid) (s : Pos) (player : Player) : Prop :=
  ∃ d ∈ jumpDirections,
    InBounds (s.1 + d.1, s.2 + d.2) ∧ InBounds (s.1 + 2 * d.1, s.2 + 2 * d.2) ∧
    IsOpponentPiece (getCell g (s.1 + d.1, s.2 + d.2)) player = true ∧
    getCell g (s.1 + 2 * d.1, s.2 + 2 * d.2) = none

instance (g : Grid) (s : Pos) (player : Player) : Decidable (JumpAvailable g s player) := by
  unfold JumpAvailable
  infer_instance

/-- The board state at the end of a capture move's jump chain: start square
cleared, captured squares cleared, the moving piece on the final landing
square.  This is the temporarily mutated board on which `dfs_jumps` decides
that no further jump exists. -/
def moveEndGrid (g : Grid) (m : Move) : Grid :=
  setCell (clearCells (setCell g m.start none) m.captures) (lastLanding m) (getCell g m.start)

/-- The promotion applied by ApplyMove to the moved piece: a white man
finishing on row 0 or a black man finishing on row 7 becomes a king. -/
def promoteCell : Option Piece → Pos → Option Piece
  | some .wm, last => if last.1 = 0 then some .wk else some .wm
  | some .bm, last => if last.1 = 7 then some .bk else some .bm
  | pc, _ => pc

/-- Search values: scores extended with -inf (⊥) and +inf (⊤). -/
abbrev Val := WithBot (WithTop ℤ)

/-- A finite score as a search value. -/
def finV (z : ℤ) : Val := ((z : WithTop ℤ) : Val)

/-- The classical alpha-beta bracketing relation between the value `r`
returned by a bounded search with window (alpha, beta) and the exact
minimax value `m` of the same node: `r` equals `m` when `m` lies strictly
inside the window, and otherwise fails in the same direction as `m`. -/
def ThreeCases (r m alpha beta : Val) : Prop :=
  (m ≤ alpha → r ≤ alpha) ∧ (alpha < m → m < beta → r = m) ∧ (beta ≤ m → beta ≤ r)

/-- Stable insertion of `x` into `l`: `x` goes in front of the first
element `y` it may precede (`le x y`). -/
def insertBy {α : Type} (le : α → α → Bool) (x : α) : List α → List α
  | [] => [x]
  | y :: ys => if le x y then x :: y :: ys else y :: insertBy le x ys

/-- Stable insertion sort.  Python's `list.sort` is stable, and a stable
sort's output is uniquely determined by the key preorder, so this computes
the same list as the source's sort. -/
def sortBy {α : Type} (le : α → α → Bool) : List α → List α
  | [] => []
  | x :: xs => insertBy le x (sortBy le xs)

/-- Sorting moves by the heuristic score of the successor position,
descending, stable (Python's `sort(key=..., reverse=True)`): used at
maximizing nodes and at the root when ordering is enabled. -/
def orderDesc (b : GameBoard) (root : Player) (moves : List Move) : List Move :=
  (sortBy (fun x y => decide (y.1 ≤ x.1))
    (moves.map (fun mv => ((b.ApplyMove mv).EvaluateFor root, mv)))).map (fun x => x.2)

/-- Sorting moves by the heuristic score of the successor position,
ascending, stable (Python's `sort(key=...)`): used at minimizing nodes when
ordering is enabled. -/
def orderAsc (b : GameBoard) (root : Player) (moves : List Move) : List Move :=
  (sortBy (fun x y => decide (x.1 ≤ y.1))
    (moves.map (fun mv => ((b.ApplyMove mv).EvaluateFor root, mv)))).map (fun x => x.2)

instance {e a : Type} [DecidableEq e] [DecidableEq a] : DecidableEq (Except e a) := fun x y =>
  match x, y with
  | .ok u, .ok v =>
    if h : u = v then isTrue (by rw [h]) else isFalse (fun hh => by cases hh; exact h rfl)
  | .error u, .error v =>
    if h : u = v then isTrue (by rw [h]) else isFalse (fun hh => by cases hh; exact h rfl)
  | .ok _, .error _ => isFalse (fun hh => by cases hh)
  | .error _, .ok _ => isFalse (fun hh => by cases hh)

/-- `_MaxValue` / `_MinValue` (plain minimax), merged into one recursion on
the remaining depth: `fuel = MaxPly - depth`, so `fuel = 0` is the
`depth >= MaxPly` static-evaluation cutoff; `isMax` selects which of the two
mutually recursive source functions this call is.  Terminal check first, as
in the source.  Time budget: unlimited (see header). -/
def minimaxValue : ℕ → Bool → GameBoard → Player → Val
  | 0, _, b, root =>
    match b.GoalTest with
    | some wn => if wn = root then (⊤ : Val) else (⊥ : Val)
    | none => finV (b.EvaluateFor root)
  | f + 1, isMax, b, root =>
    match b.GoalTest with
    | some wn => if wn = root then (⊤ : Val) else (⊥ : Val)
    | none =>
      let moves := b.GenerateLegalMoves b.PlayerToMove
      if isMax then
        moves.foldl (fun v mv => max v (minimaxValue f false (b.ApplyMove mv) root)) ⊥
      else
        moves.foldl (fun v mv => min v (minimaxValue f true (b.ApplyMove mv) root)) ⊤

/-- One iteration of the move loop of `_AlphaBetaMax`: skip when the early
return already fired (the frozen flag models `return v`), otherwise
`v = max(v, child value)`, cut off when `v >= beta`, and tighten
`alpha = max(alpha, v)`.  The loop state is (v, returned?, alpha); `ab`
evaluates a child at the current alpha. -/
def abMaxStep (ab : Val → Move → Val) (beta : Val) (st : Val × Bool × Val) (mv : Move) :
    Val × Bool × Val :=
  if st.2.1 then st
  else
    let val := ab st.2.2 mv
    let v := max st.1 val
    if beta ≤ v then (v, true, st.2.2) else (v, false, max st.2.2 v)

/-- One iteration of the move loop of `_AlphaBetaMin`, dual to
`abMaxStep`: the state is (v, returned?, beta). -/
def abMinStep (ab : Val → Move → Val) (alpha : Val) (st : Val × Bool × Val) (mv : Move) :
    Val × Bool × Val :=
  if st.2.1 then st
  else
    let val := ab st.2.2 mv
    let v := min st.1 val
    if v ≤ alpha then (v, true, st.2.2) else (v, false, min st.2.2 v)

/-- `_AlphaBetaMax` / `_AlphaBetaMin`, merged as in `minimaxValue`.  The
loop state is (v, cutoff-returned, tightened bound): a maximizing node keeps
`v = max(v, child)`, returns early when `v >= beta` (the early return is
modelled by freezing the fold state), and tightens `alpha = max(alpha, v)`;
a minimizing node is dual.  With `ord` the children are sorted by the
one-ply heuristic, descending at maximizing nodes and ascending at
minimizing nodes, as in the source. -/
def alphaBetaValue : ℕ → Bool → GameBoard → Val → Val → Player → Bool → Val
  | 0, _, b, _, _, root, _ =>
    match b.GoalTest with
    | some wn => if wn = root then (⊤ : Val) else (⊥ : Val)
    | none => finV (b.EvaluateFor root)
  | f + 1, isMax, b, alpha, beta, root, ord =>
    match b.GoalTest with
    | some wn => if wn = root then (⊤ : Val) else (⊥ : Val)
    | none =>
      let moves0 := b.GenerateLegalMoves b.PlayerToMove
        if isMax then
          let moves := if ord then orderDesc b root moves0 else moves0
          (moves.foldl
            (abMaxStep (fun a mv => alphaBetaValue f false (b.ApplyMove mv) a beta root ord)
              beta)
            ((⊥ : Val), false, alpha)).1
        else
          let moves := if ord then orderAsc b root moves0 else moves0
          (moves.foldl
            (abMinStep (fun bt mv => alphaBetaValue f true (b.ApplyMove mv) alpha bt root ord)
              alpha)
            ((⊤ : Val), false, beta)).1

/-- SearchToolBox: the configuration stored by `__init__` (the analytics
counters and the time fields are omitted, see header).  `__init__` performs
no validation of the strategy name. -/
structure SearchToolBox where
  Strategy : String
  MaxPly : ℕ
  OrderingUsed : Bool
deriving DecidableEq, Repr

/-- `SearchToolBox.__init__`: stores the configuration; `OrderingUsed` is
set iff the strategy name is "AlphaBetaOrdering"; any strategy string is
accepted. -/
def mkSearchToolBox (Strategy : String) (MaxPly : ℕ) : SearchToolBox :=
  ⟨Strategy, MaxPly, Strategy == "AlphaBetaOrdering"⟩

/-- One iteration of the root loop shared by the three strategies of
ChooseMove: compute the candidate's value and keep it iff
`val > bestVal`.  The state is (bestMove, bestVal). -/
def rootMinimaxStep (cv : Move → Val) (st : Option Move × Val) (mv : Move) :
    Option Move × Val :=
  let val := cv mv
  if st.2 < val then (some mv, val) else st

/-- One iteration of the root loop of the alpha-beta strategies: like
`rootMinimaxStep` but the state also carries the root alpha, tightened to
`max(alpha, bestVal)` after each candidate. -/
def rootABStep (ab : Val → Move → Val) (st : Option Move × Val × Val) (mv : Move) :
    Option Move × Val × Val :=
  let val := ab st.2.2 mv
  let st1 := if st.2.1 < val then (some mv, val, st.2.2) else st
  (st1.1, st1.2.1, max st1.2.2 st1.2.1)

/-- ChooseMove with an unlimited time budget.  Returns the best move (None
when no legal move exists, or when no candidate ever beat the initial best
value) together with the internal best value `bestVal`; the analytics dict
is omitted (see header).  An unknown strategy name raises ValueError
(`Except.error`) here, after legal-move generation, exactly as the source
does.  Note the source initialization: `bestVal = -inf if player == 'b'
else inf`, while every strategy then updates on `val > bestVal`. -/
def SearchToolBox.ChooseMove (tb : SearchToolBox) (b : GameBoard) :
    Except String (Option Move × Val) :=
  let player := b.PlayerToMove
  let legal := b.GenerateLegalMoves player
  if legal = [] then Except.ok (none, if player = Player.b then (⊥ : Val) else (⊤ : Val))
  else
    let bestInit : Val := if player = Player.b then ⊥ else ⊤
    let childList := if tb.OrderingUsed then orderDesc b player legal else legal
    if tb.Strategy = "Minimax" then
      Except.ok (childList.foldl
        (rootMinimaxStep (fun mv => minimaxValue (tb.MaxPly - 1) false (b.ApplyMove mv) player))
        ((none : Option Move), bestInit))
    else if tb.Strategy = "AlphaBeta" then
      let st := childList.foldl
        (rootABStep (fun a mv =>
          alphaBetaValue (tb.MaxPly - 1) false (b.ApplyMove mv) a (⊤ : Val) player false))
        ((none : Option Move), bestInit, (⊥ : Val))
      Except.ok (st.1, st.2.1)
    else if tb.Strategy = "AlphaBetaOrdering" then
      let st := childList.foldl
        (rootABStep (fun a mv =>
          alphaBetaValue (tb.MaxPly - 1) false (b.ApplyMove mv) a (⊤ : Val) player true))
        ((none : Option Move), bestInit, (⊥ : Val))
      Except.ok (st.1, st.2.1)
    else Except.error ("Unknown strategy: " ++ tb.Strategy)

/-- The game-theoretic best value ChooseMove is after: with no legal move,
the root player has lost (or, for a white root, the initialization value);
otherwise for a black root the maximum over the legal moves of the exact
minimax value of the successor at depth `MaxPly - 1`, and for a white root
the initialization value +inf, which `val > bestVal` never beats. -/
def rootExactVal (b : GameBoard) (mp : ℕ) : Val :=
  let player := b.PlayerToMove
  let legal := b.GenerateLegalMoves player
  if legal = [] then (if player = Player.b then (⊥ : Val) else ⊤)
  else if player = Player.b then
    legal.foldl (fun w mv => max w (minimaxValue (mp - 1) false (b.ApplyMove mv) player)) ⊥
  else ⊤

/-- The all-empty grid (used by concrete test positions below). -/
def emptyGrid : Grid := fun _ => none

/-- A board with no pieces at all. -/
def emptyBoard : GameBoard := ⟨emptyGrid, .w⟩

/-- Concrete position: a white man on (5,4) facing a black man on (4,3)
with (3,2) empty — white has a single forced capture. -/
def capGrid : Grid :=
  setCell (setCell emptyGrid (5, 4) (some .wm)) (4, 3) (some .bm)

/-- The capture test board, white to move. -/
def capBoard : GameBoard := ⟨capGrid, .w⟩

/-- The single forced capture on `capBoard`. -/
def capMove : Move := ⟨(5, 4), [(3, 2)], [(4, 3)]⟩

/-- Concrete position: a white man on (4,5) surrounded by black men on
(3,6), (1,6), (1,4), (3,4) with (2,7), (0,5), (2,3) empty — the forced
multi-jump is a 4-capture cycle that lands back on the start square. -/
def cycGrid : Grid :=
  setCell (setCell (setCell (setCell (setCell emptyGrid
    (4, 5) (some .wm)) (3, 6) (some .bm)) (1, 6) (some .bm)) (1, 4) (some .bm)) (3, 4) (some .bm)

/-- The cyclic-capture test board, white to move. -/
def cycBoard : GameBoard := ⟨cycGrid, .w⟩

/-- The cyclic capture move emitted first by GenerateLegalMoves on
`cycBoard`: four jumps returning to the start square. -/
def cycMove : Move :=
  ⟨(4, 5), [(2, 3), (0, 5), (2, 7), (4, 5)], [(3, 4), (1, 4), (1, 6), (3, 6)]⟩

/- ================================================================
   Basic lemmas: cells, grids, the square list, counting
   ================================================================ -/

theorem getCell_out (g : Grid) (p : Pos) (h : ¬ InBounds p) : getCell g p = none := by
  simp [getCell, h]

theorem getCell_in (g : Grid) (p : Pos) (h : InBounds p) : getCell g p = g p := by
  simp [getCell, h]

theorem getCell_setCell_self (g : Grid) (p : Pos) (v : Option Piece) (h : InBounds p) :
    getCell (setCell g p v) p = v := by
  simp [getCell, setCell, h]

theorem getCell_setCell_ne (g : Grid) (p q : Pos) (v : Option Piece) (h : q ≠ p) :
    getCell (setCell g p v) q = getCell g q := by
  simp [getCell, setCell, h]

theorem setCell_setCell_same (g : Grid) (p : Pos) (u v : Option Piece) :
    setCell (setCell g p u) p v = setCell g p v := by
  funext q
  simp only [setCell]
  by_cases h : q = p <;> simp [h]

theorem setCell_comm (g : Grid) (p q : Pos) (u v : Option Piece) (h : p ≠ q) :
    setCell (setCell g p u) q v = setCell (setCell g q v) p u := by
  funext x
  simp only [setCell]
  by_cases h1 : x = q
  · by_cases h2 : x = p
    · exact absurd (h2.symm.trans h1) h
    · simp [h1, h2, Ne.symm h]
  · by_cases h2 : x = p <;> simp [h1, h2, h, Ne.symm h]

theorem setCell_cancel (g : Grid) (p : Pos) (h : InBounds p) :
    setCell g p (getCell g p) = g := by
  funext q
  simp only [setCell]
  by_cases hq : q = p
  · subst hq
    simp [getCell, h]
  · simp [hq]

theorem clearCells_append (g : Grid) (l1 l2 : List Pos) :
    clearCells g (l1 ++ l2) = clearCells (clearCells g l1) l2 :=
  List.foldl_append _ _ _ _

theorem getCell_clearCells_not_mem (g : Grid) (l : List Pos) (q : Pos) (h : q ∉ l) :
    getCell (clearCells g l) q = getCell g q := by
  induction l generalizing g with
  | nil => rfl
  | cons a t ih =>
    have h1 : q ≠ a := fun e => h (e ▸ List.mem_cons_self a t)
    have h2 : q ∉ t := fun e => h (List.mem_cons_of_mem a e)
    show getCell (clearCells (setCell g a none) t) q = getCell g q
    rw [ih (setCell g a none) h2, getCell_setCell_ne g a q none h1]

theorem getCell_clearCells_mem (g : Grid) (l : List Pos) (q : Pos) (h : q ∈ l) :
    getCell (clearCells g l) q = none := by
  induction l generalizing g with
  | nil => cases h
  | cons a t ih =>
    show getCell (clearCells (setCell g a none) t) q = none
    by_cases ht : q ∈ t
    · exact ih (setCell g a none) ht
    · have ha : q = a := by
        rcases List.mem_cons.mp h with h' | h'
        · exact h'
        · exact absurd h' ht
      rw [getCell_clearCells_not_mem _ t q ht]
      subst ha
      by_cases hin : InBounds q
      · exact getCell_setCell_self g q none hin
      · exact getCell_out _ q hin

theorem mem_allPositions (p : Pos) : p ∈ allPositions ↔ InBounds p := by
  constructor
  · intro h
    unfold allPositions at h
    rw [List.mem_flatMap] at h
    obtain ⟨r, hr, hmem⟩ := h
    rw [List.mem_map] at hmem
    obtain ⟨c, hc, rfl⟩ := hmem
    rw [List.mem_range] at hr hc
    refine ⟨?_, ?_, ?_, ?_⟩ <;> dsimp only <;> simp only [Int.ofNat_eq_natCast] <;> omega
  · rintro ⟨h1, h2, h3, h4⟩
    unfold allPositions
    rw [List.mem_flatMap]
    refine ⟨p.1.toNat, ?_, ?_⟩
    · rw [List.mem_range]
      omega
    · rw [List.mem_map]
      refine ⟨p.2.toNat, ?_, ?_⟩
      · rw [List.mem_range]
        omega
      · simp only [Int.ofNat_eq_natCast]
        rw [Int.toNat_of_nonneg h1, Int.toNat_of_nonneg h3]

theorem countP_lt_of_pointwise {α : Type} (l : List α) (pr pr' : α → Bool)
    (hmono : ∀ x ∈ l, pr' x = true → pr x = true) (a : α) (ha : a ∈ l)
    (hpa : pr a = true) (hpa' : pr' a = false) :
    l.countP pr' < l.countP pr := by
  induction l with
  | nil => cases ha
  | cons x t ih =>
    rw [List.countP_cons, List.countP_cons]
    have hmono' : ∀ y ∈ t, pr' y = true → pr y = true :=
      fun y hy => hmono y (List.mem_cons_of_mem _ hy)
    rcases List.mem_cons.mp ha with rfl | hat
    · rw [hpa, hpa']
      have := List.countP_mono_left hmono'
      simp only [if_true, Bool.false_eq_true, if_false]
      omega
    · have hx : (if pr' x = true then 1 else 0) ≤ (if pr x = true then 1 else 0) := by
        by_cases hpx : pr' x = true
        · rw [if_pos hpx, if_pos (hmono x (List.mem_cons_self _ _) hpx)]
        · rw [if_neg hpx]
          omega
      have := ih hmono' hat
      omega

/- ================================================================
   C10: GoalTest on the doubly-empty board, and the None condition
   ================================================================ -/

/-- C10: on a board where both sides have zero pieces GoalTest returns 'b'
(dark) — never a draw or 'w' — because the emptiness of the white side is
tested first; and GoalTest returns None exactly when both sides still have
at least one piece. -/
theorem goalTest_both_empty_black_and_none_iff (b : GameBoard) :
    (hasAnyPiece b.Board .w = false → hasAnyPiece b.Board .b = false →
      b.GoalTest = some Player.b) ∧
    (b.GoalTest = none ↔
      hasAnyPiece b.Board .w = true ∧ hasAnyPiece b.Board .b = true) := by
  unfold GameBoard.GoalTest
  by_cases hw : hasAnyPiece b.Board .w = true
  · by_cases hb : hasAnyPiece b.Board .b = true
    · simp [hw, hb]
    · simp [hw, hb]
  · simp [hw]

/-- Witness for C10 at the concrete all-empty board: both sides are empty
and GoalTest answers 'b'. -/
theorem goalTest_both_empty_black_and_none_iff_witness :
    hasAnyPiece emptyBoard.Board .w = false ∧ hasAnyPiece emptyBoard.Board .b = false ∧
      emptyBoard.GoalTest = some Player.b :=
  ⟨by decide, by decide,
    (goalTest_both_empty_black_and_none_iff emptyBoard).1 (by decide) (by decide)⟩

/- ================================================================
   C9: antisymmetry of the static evaluation
   ================================================================ -/

theorem pieceScoreStep_swap (g : Grid) (q : Pos) (s : ℤ × ℤ) :
    pieceScoreStep g .w s q = Prod.swap (pieceScoreStep g .b (Prod.swap s) q) := by
  unfold pieceScoreStep
  cases hc : getCell g q with
  | none => rfl
  | some pc => cases pc <;> rfl

theorem scoresFold_swap (g : Grid) (l : List Pos) :
    ∀ s : ℤ × ℤ, l.foldl (pieceScoreStep g .w) s =
      Prod.swap (l.foldl (pieceScoreStep g .b) (Prod.swap s)) := by
  induction l with
  | nil => intro s; exact (Prod.swap_swap s).symm
  | cons q t ih =>
    intro s
    have e : Prod.swap (pieceScoreStep g .w s q) = pieceScoreStep g .b (Prod.swap s) q := by
      rw [pieceScoreStep_swap g q s, Prod.swap_swap]
    rw [List.foldl_cons, List.foldl_cons, ih, e]

/-- C9: the static evaluation is antisymmetric between the two sides — for
every board, EvaluateFor 'w' is the exact negation of EvaluateFor 'b': the
piece/centre sums swap roles and the mobility term negates. -/
theorem evaluateFor_antisymm (b : GameBoard) :
    b.EvaluateFor Player.w = - b.EvaluateFor Player.b := by
  simp only [GameBoard.EvaluateFor, OtherStuff.OpponentOf]
  have e := scoresFold_swap b.Board allPositions (0, 0)
  simp only [show Prod.swap ((0 : ℤ), (0 : ℤ)) = (0, 0) from rfl] at e
  rw [e, Prod.fst_swap, Prod.snd_swap]
  ring

/- ================================================================
   The jump search: structure of emitted moves (C2, C8)
   ================================================================ -/

theorem IsOpponentPiece_isSome (c : Option Piece) (p : Player)
    (h : IsOpponentPiece c p = true) : c.isSome = true := by
  cases c with
  | none => simp [IsOpponentPiece] at h
  | some pc => rfl

theorem jumpCandidates_sound (player : Player) (g : Grid) (cur : Pos) (captured : List Pos)
    (ml : Pos × Pos) (h : ml ∈ jumpCandidates player g cur captured) :
    InBounds ml.1 ∧ InBounds ml.2 ∧ getCell g ml.2 = none ∧ ml.1 ∉ captured ∧
      IsOpponentPiece (getCell g ml.1) player = true ∧
      ∃ d ∈ jumpDirections, ml.1 = (cur.1 + d.1, cur.2 + d.2) ∧
        ml.2 = (cur.1 + 2 * d.1, cur.2 + 2 * d.2) := by
  unfold jumpCandidates at h
  rw [List.mem_filterMap] at h
  obtain ⟨d, hd, he⟩ := h
  dsimp only at he
  split at he
  case isTrue hcond =>
    injection he with he2
    subst he2
    obtain ⟨c1, c2, c3, c4, c5, c6⟩ := hcond
    exact ⟨c1, c2, c4, c5, c6, d, hd, rfl, rfl⟩
  case isFalse hcond => cases he

theorem jumpCandidates_complete (player : Player) (g : Grid) (cur : Pos)
    (captured : List Pos) (d : Pos) (hd : d ∈ jumpDirections)
    (h1 : InBounds (cur.1 + d.1, cur.2 + d.2))
    (h2 : InBounds (cur.1 + 2 * d.1, cur.2 + 2 * d.2))
    (h3 : getCell g (cur.1 + 2 * d.1, cur.2 + 2 * d.2) = none)
    (h4 : (cur.1 + d.1, cur.2 + d.2) ∉ captured)
    (h5 : IsOpponentPiece (getCell g (cur.1 + d.1, cur.2 + d.2)) player = true) :
    ((cur.1 + d.1, cur.2 + d.2), (cur.1 + 2 * d.1, cur.2 + 2 * d.2)) ∈
      jumpCandidates player g cur captured := by
  unfold jumpCandidates
  rw [List.mem_filterMap]
  refine ⟨d, hd, ?_⟩
  dsimp only
  rw [if_pos ⟨h1, h2, IsOpponentPiece_isSome _ _ h5, h3, h4, h5⟩]

theorem dfsJumps_mem_basic (player : Player) (orig : Pos) :
    ∀ (fuel : ℕ) (g : Grid) (cur : Pos) (captured seq : List Pos) (m : Move),
      m ∈ dfsJumps player orig fuel g cur captured seq →
      m.start = orig ∧ m.captures ≠ [] ∧
      m.sequence.length + captured.length = m.captures.length + seq.length := by
  intro fuel
  induction fuel with
  | zero =>
    intro g cur captured seq m hm
    by_cases hc : captured = []
    · simp [dfsJumps, hc] at hm
    · simp only [dfsJumps, if_neg hc] at hm
      rw [List.mem_singleton] at hm
      subst hm
      refine ⟨rfl, hc, ?_⟩
      show seq.length + captured.length = captured.length + seq.length
      omega
  | succ f ih =>
    intro g cur captured seq m hm
    simp only [dfsJumps] at hm
    by_cases hj : jumpCandidates player g cur captured = []
    · rw [if_pos hj] at hm
      by_cases hc : captured = []
      · simp [hc] at hm
      · rw [if_neg hc, List.mem_singleton] at hm
        subst hm
        refine ⟨rfl, hc, ?_⟩
        show seq.length + captured.length = captured.length + seq.length
        omega
    · rw [if_neg hj, List.mem_flatMap] at hm
      obtain ⟨ml, hml, hrec⟩ := hm
      obtain ⟨e1, e2, e3⟩ := ih _ _ _ _ _ hrec
      refine ⟨e1, e2, ?_⟩
      simp only [List.length_append, List.length_singleton] at e3
      omega

theorem dfsJumps_ne_nil (player : Player) (orig : Pos) :
    ∀ (fuel : ℕ) (g : Grid) (cur : Pos) (captured seq : List Pos),
      captured ≠ [] → dfsJumps player orig fuel g cur captured seq ≠ [] := by
  intro fuel
  induction fuel with
  | zero =>
    intro g cur captured seq hc
    simp only [dfsJumps, if_neg hc]
    exact List.cons_ne_nil _ _
  | succ f ih =>
    intro g cur captured seq hc
    simp only [dfsJumps]
    by_cases hj : jumpCandidates player g cur captured = []
    · rw [if_pos hj, if_neg hc]
      exact List.cons_ne_nil _ _
    · rw [if_neg hj]
      obtain ⟨ml, hml⟩ := List.exists_mem_of_ne_nil _ hj
      intro hfl
      rw [List.flatMap_eq_nil_iff] at hfl
      exact ih _ _ _ _ (List.append_ne_nil_of_right_ne_nil captured (List.cons_ne_nil _ _))
        (hfl ml hml)

theorem pieceCaptures_ne_nil (g : Grid) (player : Player) (s : Pos)
    (h : JumpAvailable g s player) : pieceCaptures g player s ≠ [] := by
  obtain ⟨d, hd, h1, h2, h3, h4⟩ := h
  have hmem : (s.1 + d.1, s.2 + d.2) ∈ allPositions := (mem_allPositions _).mpr h1
  have hpos : 0 < countOpp g player := by
    rw [countOpp, List.countP_pos_iff]
    exact ⟨_, hmem, h3⟩
  obtain ⟨n, hn⟩ := Nat.exists_eq_succ_of_ne_zero (Nat.pos_iff_ne_zero.mp hpos)
  unfold pieceCaptures
  rw [hn]
  simp only [dfsJumps]
  have hjc : ((s.1 + d.1, s.2 + d.2), (s.1 + 2 * d.1, s.2 + 2 * d.2)) ∈
      jumpCandidates player g s [] :=
    jumpCandidates_complete player g s [] d hd h1 h2 h4 (by simp) h3
  have hne : jumpCandidates player g s [] ≠ [] := fun e => by
    rw [e] at hjc
    cases hjc
  rw [if_neg hne]
  intro hfl
  rw [List.flatMap_eq_nil_iff] at hfl
  exact dfsJumps_ne_nil player s n _ _ _ _
    (List.append_ne_nil_of_right_ne_nil [] (List.cons_ne_nil _ _)) (hfl _ hjc)

theorem pieceCaptures_eq_nil (g : Grid) (player : Player) (s : Pos)
    (h : ¬ JumpAvailable g s player) : pieceCaptures g player s = [] := by
  unfold pieceCaptures
  cases hn : countOpp g player with
  | zero => simp [dfsJumps]
  | succ n =>
    simp only [dfsJumps]
    have hj : jumpCandidates player g s [] = [] := by
      by_contra hne
      obtain ⟨ml, hml⟩ := List.exists_mem_of_ne_nil _ hne
      obtain ⟨c1, c2, c3, c4, c5, d, hd, e1, e2⟩ := jumpCandidates_sound player g s [] ml hml
      exact h ⟨d, hd, e1 ▸ c1, e2 ▸ c2, e1 ▸ c5, e2 ▸ c3⟩
    rw [if_pos hj]
    simp

/-- The branch structure of GenerateLegalMoves, with its let-bindings
unfolded. -/
theorem generateLegalMoves_eq (b : GameBoard) (player : Player) :
    b.GenerateLegalMoves player =
      if (b.GetPiecesOfPlayer player).flatMap (fun s => pieceCaptures b.Board player s) = []
      then (b.GetPiecesOfPlayer player).flatMap (fun s =>
        if pieceCaptures b.Board player s = [] then
          match getCell b.Board s with
          | some pc => simpleMovesFrom b.Board s pc
          | none => []
        else [])
      else (b.GetPiecesOfPlayer player).flatMap (fun s => pieceCaptures b.Board player s) :=
  rfl

theorem mem_simpleMovesFrom (g : Grid) (s : Pos) (pc : Piece) (m : Move)
    (h : m ∈ simpleMovesFrom g s pc) :
    ∃ d ∈ PieceDirections (some pc), m = ⟨s, [(s.1 + d.1, s.2 + d.2)], []⟩ ∧
      InBounds (s.1 + d.1, s.2 + d.2) ∧ getCell g (s.1 + d.1, s.2 + d.2) = none := by
  unfold simpleMovesFrom at h
  rw [List.mem_filterMap] at h
  obtain ⟨d, hd, he⟩ := h
  dsimp only at he
  split at he
  case isTrue hcond =>
    injection he with he2
    subst he2
    exact ⟨d, hd, rfl, hcond.1, hcond.2⟩
  case isFalse hcond => cases he

/-- C2: GenerateLegalMoves enforces the mandatory-capture rule — when any
piece of the side has a capture available only capture moves (non-empty
`captures`) are returned, when no piece has a capture only simple moves
(empty `captures`) are returned, and the returned list never mixes the
two kinds. -/
theorem generateLegalMoves_capture_purity (b : GameBoard) (player : Player) :
    ((∃ s ∈ b.GetPiecesOfPlayer player, JumpAvailable b.Board s player) →
      ∀ m ∈ b.GenerateLegalMoves player, m.captures ≠ []) ∧
    ((∀ s ∈ b.GetPiecesOfPlayer player, ¬ JumpAvailable b.Board s player) →
      ∀ m ∈ b.GenerateLegalMoves player, m.captures = []) ∧
    ((∀ m ∈ b.GenerateLegalMoves player, m.captures ≠ []) ∨
      (∀ m ∈ b.GenerateLegalMoves player, m.captures = [])) := by
  have hcap : ∀ m ∈ (b.GetPiecesOfPlayer player).flatMap
      (fun s => pieceCaptures b.Board player s), m.captures ≠ [] := by
    intro m hm
    rw [List.mem_flatMap] at hm
    obtain ⟨s, hs, hm⟩ := hm
    unfold pieceCaptures at hm
    exact (dfsJumps_mem_basic player s _ _ _ _ _ _ hm).2.1
  have hsimp : ∀ m ∈ (b.GetPiecesOfPlayer player).flatMap (fun s =>
      if pieceCaptures b.Board player s = [] then
        match getCell b.Board s with
        | some pc => simpleMovesFrom b.Board s pc
        | none => []
      else []), m.captures = [] := by
    intro m hm
    rw [List.mem_flatMap] at hm
    obtain ⟨s, hs, hm⟩ := hm
    by_cases hpc : pieceCaptures b.Board player s = []
    · rw [if_pos hpc] at hm
      cases hg : getCell b.Board s with
      | none =>
        rw [hg] at hm
        cases hm
      | some pc =>
        rw [hg] at hm
        obtain ⟨d, hd, rfl, _, _⟩ := mem_simpleMovesFrom _ _ _ _ hm
        rfl
    · rw [if_neg hpc] at hm
      cases hm
  rw [generateLegalMoves_eq]
  by_cases hc : (b.GetPiecesOfPlayer player).flatMap
      (fun s => pieceCaptures b.Board player s) = []
  · rw [if_pos hc]
    refine ⟨?_, ?_, Or.inr hsimp⟩
    · rintro ⟨s, hs, hjump⟩
      have := pieceCaptures_ne_nil b.Board player s hjump
      rw [List.flatMap_eq_nil_iff] at hc
      exact absurd (hc s hs) this
    · intro _
      exact hsimp
  · rw [if_neg hc]
    exact ⟨fun _ => hcap, fun hno => by
      rw [List.flatMap_eq_nil_iff] at hc
      exact absurd (fun s hs => pieceCaptures_eq_nil b.Board player s (hno s hs)) hc,
      Or.inl hcap⟩

/-- Witness for C2 at the concrete board `capBoard`: white's man on (5,4)
has a jump available, and every move returned is a capture. -/
theorem generateLegalMoves_capture_purity_witness :
    (∃ s ∈ capBoard.GetPiecesOfPlayer Player.w, JumpAvailable capBoard.Board s Player.w) ∧
      ∀ m ∈ capBoard.GenerateLegalMoves Player.w, m.captures ≠ [] :=
  ⟨by decide, (generateLegalMoves_capture_purity capBoard Player.w).1 (by decide)⟩

/-- C8: every move returned by GenerateLegalMoves satisfies the move-shape
invariant — an empty `captures` list comes with a single-entry `sequence`,
and a non-empty `captures` list comes with a `sequence` of the same
length (one landing square per jump). -/
theorem generateLegalMoves_move_shape (b : GameBoard) (player : Player) (m : Move)
    (h : m ∈ b.GenerateLegalMoves player) :
    (m.captures = [] → m.sequence.length = 1) ∧
    (m.captures ≠ [] → m.sequence.length = m.captures.length) := by
  rw [generateLegalMoves_eq] at h
  by_cases hc : (b.GetPiecesOfPlayer player).flatMap
      (fun s => pieceCaptures b.Board player s) = []
  · rw [if_pos hc, List.mem_flatMap] at h
    obtain ⟨s, hs, hm⟩ := h
    by_cases hpc : pieceCaptures b.Board player s = []
    · rw [if_pos hpc] at hm
      cases hg : getCell b.Board s with
      | none =>
        rw [hg] at hm
        cases hm
      | some pc =>
        rw [hg] at hm
        obtain ⟨d, hd, rfl, _, _⟩ := mem_simpleMovesFrom _ _ _ _ hm
        exact ⟨fun _ => rfl, fun hne => absurd rfl hne⟩
    · rw [if_neg hpc] at hm
      cases hm
  · rw [if_neg hc, List.mem_flatMap] at h
    obtain ⟨s, hs, hm⟩ := h
    unfold pieceCaptures at hm
    obtain ⟨e1, e2, e3⟩ := dfsJumps_mem_basic player s _ _ _ _ _ _ hm
    refine ⟨fun he => absurd he e2, fun _ => ?_⟩
    simpa using e3

/-- Witness for C8 at the concrete board `capBoard` and its forced capture
move: sequence and captures have the same length. -/
theorem generateLegalMoves_move_shape_witness :
    capMove ∈ capBoard.GenerateLegalMoves Player.w ∧
      capMove.sequence.length = capMove.captures.length :=
  ⟨by decide,
    (generateLegalMoves_move_shape capBoard Player.w capMove (by decide)).2 (by decide)⟩

/- ================================================================
   The jump search: the net board at the end of a capture chain
   (towards C4 and C5)
   ================================================================ -/

theorem ne_of_fst_ne {p q : Pos} (h : p.1 ≠ q.1) : p ≠ q :=
  fun he => h (congrArg Prod.fst he)

theorem jumpDirections_spec (d : Pos) (hd : d ∈ jumpDirections) :
    (d.1 = 1 ∨ d.1 = -1) ∧ (d.2 = 1 ∨ d.2 = -1) := by
  simp only [jumpDirections, List.mem_cons, List.not_mem_nil, or_false] at hd
  rcases hd with rfl | rfl | rfl | rfl <;> exact (by decide)

theorem mem_GetPiecesOfPlayer (b : GameBoard) (player : Player) (s : Pos) :
    s ∈ b.GetPiecesOfPlayer player ↔
      InBounds s ∧ ∃ pc, getCell b.Board s = some pc ∧ pc.side = player := by
  unfold GameBoard.GetPiecesOfPlayer
  rw [List.mem_filter, mem_allPositions]
  constructor
  · rintro ⟨hin, hpred⟩
    refine ⟨hin, ?_⟩
    cases hg : getCell b.Board s with
    | none =>
      rw [hg] at hpred
      simp at hpred
    | some pc =>
      rw [hg] at hpred
      simp at hpred
      exact ⟨pc, rfl, hpred⟩
  · rintro ⟨hin, pc, hg, hside⟩
    refine ⟨hin, ?_⟩
    rw [hg]
    simp [hside]

theorem getCell_jumpBoard (g : Grid) (cur mid land : Pos) (x : Pos)
    (hmidin : InBounds mid) (hcurin : InBounds cur) (hlandin : InBounds land)
    (hmc : mid ≠ cur) (hlc : land ≠ cur) (hlm : land ≠ mid) :
    getCell (jumpBoard g cur mid land) x =
      if x = mid then none
      else if x = cur then none
      else if x = land then getCell g cur
      else getCell g x := by
  unfold jumpBoard
  by_cases h1 : x = mid
  · subst h1
    rw [getCell_setCell_self _ _ _ hmidin]
    simp
  · rw [getCell_setCell_ne _ _ _ _ h1]
    by_cases h2 : x = cur
    · subst h2
      rw [getCell_setCell_self _ _ _ hcurin]
      simp [h1]
    · rw [getCell_setCell_ne _ _ _ _ h2]
      by_cases h3 : x = land
      · subst h3
        rw [getCell_setCell_self _ _ _ hlandin]
        simp [h1, h2]
      · rw [getCell_setCell_ne _ _ _ _ h3]
        simp [h1, h2, h3]

/-- The central invariant of `dfs_jumps`.  For a call whose current board
`g` is the original board with the start square cleared, the captured
squares cleared and the moving piece on `cur` (exactly the temporary
mutation the source maintains), with fuel at least the number of opponent
pieces on `g`: every emitted move ends on a square of the start square's
row parity, its captured squares are in bounds and of the opposite row
parity, and after the move's own jumps (start and captures cleared, piece
on the final landing square — `moveEndGrid`) no further jump is available.
The fuel can only run out when no opponent piece is left, when no jump is
available either. -/
theorem dfsJumps_mem_spec (player : Player) (orig : Pos) (g0 : Grid) (pc0 : Piece)
    (hpc : getCell g0 orig = some pc0) (hside : pc0.side = player) (horig : InBounds orig) :
    ∀ (fuel : ℕ) (g : Grid) (cur : Pos) (captured seq : List Pos),
      InBounds cur →
      cur.1 % 2 = orig.1 % 2 →
      (∀ q ∈ captured, InBounds q ∧ q.1 % 2 ≠ orig.1 % 2) →
      seq.foldl (fun _ t => t) orig = cur →
      g = setCell (clearCells (setCell g0 orig none) captured) cur (some pc0) →
      getCell (clearCells (setCell g0 orig none) captured) cur = none →
      countOpp g player ≤ fuel →
      ∀ m ∈ dfsJumps player orig fuel g cur captured seq,
        (∀ q ∈ m.captures, InBounds q ∧ q.1 % 2 ≠ orig.1 % 2) ∧
        InBounds (lastLanding m) ∧ (lastLanding m).1 % 2 = orig.1 % 2 ∧
        ¬ JumpAvailable (moveEndGrid g0 m) (lastLanding m) player := by
  intro fuel
  induction fuel with
  | zero =>
    intro g cur captured seq hcurin hcurpar hcap hfoldl hg hvac hfuel m hm
    by_cases hc : captured = []
    · simp [dfsJumps, hc] at hm
    · simp only [dfsJumps, if_neg hc] at hm
      rw [List.mem_singleton] at hm
      subst hm
      have hlast : lastLanding ⟨orig, seq, captured⟩ = cur := hfoldl
      have hend : moveEndGrid g0 ⟨orig, seq, captured⟩ = g := by
        unfold moveEndGrid
        dsimp only
        rw [hlast, hpc]
        exact hg.symm
      refine ⟨hcap, by rw [hlast]; exact hcurin, by rw [hlast]; exact hcurpar, ?_⟩
      rw [hend, hlast]
      have h0 : countOpp g player = 0 := Nat.le_zero.mp hfuel
      rintro ⟨d, hd, j1, j2, j3, j4⟩
      rw [countOpp, List.countP_eq_zero] at h0
      exact h0 _ ((mem_allPositions _).mpr j1) j3
  | succ f ih =>
    intro g cur captured seq hcurin hcurpar hcap hfoldl hg hvac hfuel m hm
    simp only [dfsJumps] at hm
    by_cases hj : jumpCandidates player g cur captured = []
    · rw [if_pos hj] at hm
      by_cases hc : captured = []
      · simp [hc] at hm
      · rw [if_neg hc, List.mem_singleton] at hm
        subst hm
        have hlast : lastLanding ⟨orig, seq, captured⟩ = cur := hfoldl
        have hend : moveEndGrid g0 ⟨orig, seq, captured⟩ = g := by
          unfold moveEndGrid
          dsimp only
          rw [hlast, hpc]
          exact hg.symm
        refine ⟨hcap, by rw [hlast]; exact hcurin, by rw [hlast]; exact hcurpar, ?_⟩
        rw [hend, hlast]
        rintro ⟨d, hd, j1, j2, j3, j4⟩
        obtain ⟨hd1, hd2⟩ := jumpDirections_spec d hd
        have hmidne : ((cur.1 + d.1, cur.2 + d.2) : Pos) ≠ cur :=
          ne_of_fst_ne (by dsimp only; omega)
        have hmidnotcap : ((cur.1 + d.1, cur.2 + d.2) : Pos) ∉ captured := by
          intro hmem
          have hnone : getCell g (cur.1 + d.1, cur.2 + d.2) = none := by
            rw [hg, getCell_setCell_ne _ _ _ _ hmidne,
              getCell_clearCells_mem _ _ _ hmem]
          rw [hnone] at j3
          simp [IsOpponentPiece] at j3
        exact List.ne_nil_of_mem
          (jumpCandidates_complete player g cur captured d hd j1 j2 j4 hmidnotcap j3) hj
    · rw [if_neg hj, List.mem_flatMap] at hm
      obtain ⟨ml, hml, hrec⟩ := hm
      obtain ⟨c1, c2, c3, c4, c5, d, hd, emid, eland⟩ :=
        jumpCandidates_sound player g cur captured ml hml
      obtain ⟨hd1, hd2⟩ := jumpDirections_spec d hd
      have hnemc : ml.1 ≠ cur := by
        rw [emid]
        exact ne_of_fst_ne (by dsimp only; omega)
      have hnelc : ml.2 ≠ cur := by
        rw [eland]
        exact ne_of_fst_ne (by dsimp only; omega)
      have hnelm : ml.2 ≠ ml.1 := by
        rw [eland, emid]
        exact ne_of_fst_ne (by dsimp only; omega)
      have hgcur : getCell g cur = some pc0 := by
        rw [hg, getCell_setCell_self _ _ _ hcurin]
      have hX : setCell (clearCells (setCell g0 orig none) captured) cur none
          = clearCells (setCell g0 orig none) captured := by
        have hcc := setCell_cancel (clearCells (setCell g0 orig none) captured) cur hcurin
        rw [hvac] at hcc
        exact hcc
      have hsingle : clearCells (clearCells (setCell g0 orig none) captured) [ml.1]
          = setCell (clearCells (setCell g0 orig none) captured) ml.1 none := rfl
      have hb' : jumpBoard g cur ml.1 ml.2
          = setCell (clearCells (setCell g0 orig none) (captured ++ [ml.1])) ml.2 (some pc0) := by
        unfold jumpBoard
        rw [hgcur]
        conv_lhs => rw [hg]
        rw [setCell_comm _ _ _ _ _ hnelc, setCell_setCell_same, hX,
          setCell_comm _ _ _ _ _ hnelm, clearCells_append, hsingle]
      have hvac' : getCell (clearCells (setCell g0 orig none) (captured ++ [ml.1])) ml.2
          = none := by
        rw [clearCells_append, hsingle, getCell_setCell_ne _ _ _ _ hnelm]
        have : getCell (clearCells (setCell g0 orig none) captured) ml.2 = getCell g ml.2 := by
          rw [hg, getCell_setCell_ne _ _ _ _ hnelc]
        rw [this, c3]
      have hcount : countOpp (jumpBoard g cur ml.1 ml.2) player < countOpp g player := by
        apply countP_lt_of_pointwise allPositions
          (fun q => IsOpponentPiece (getCell g q) player)
          (fun q => IsOpponentPiece (getCell (jumpBoard g cur ml.1 ml.2) q) player)
          ?_ ml.1 ((mem_allPositions _).mpr c1) c5 ?_
        · intro x hx hPx
          dsimp only at hPx ⊢
          rw [getCell_jumpBoard g cur ml.1 ml.2 x c1 hcurin c2 hnemc hnelc hnelm] at hPx
          by_cases h1 : x = ml.1
          · rw [if_pos h1] at hPx
            simp [IsOpponentPiece] at hPx
          · rw [if_neg h1] at hPx
            by_cases h2 : x = cur
            · rw [if_pos h2] at hPx
              simp [IsOpponentPiece] at hPx
            · rw [if_neg h2] at hPx
              by_cases h3 : x = ml.2
              · rw [if_pos h3, hgcur] at hPx
                rw [show IsOpponentPiece (some pc0) player = (pc0.side != player) from rfl,
                  hside] at hPx
                simp at hPx
              · rw [if_neg h3] at hPx
                exact hPx
        · show IsOpponentPiece (getCell (jumpBoard g cur ml.1 ml.2) ml.1) player = false
          rw [getCell_jumpBoard g cur ml.1 ml.2 ml.1 c1 hcurin c2 hnemc hnelc hnelm,
            if_pos rfl]
          rfl
      apply ih (jumpBoard g cur ml.1 ml.2) ml.2 (captured ++ [ml.1]) (seq ++ [ml.2]) c2
        ?_ ?_ ?_ hb' hvac' ?_ m hrec
      · rw [eland]
        dsimp only
        omega
      · intro q hq
        rcases List.mem_append.mp hq with hq | hq
        · exact hcap q hq
        · rw [List.mem_singleton] at hq
          subst hq
          refine ⟨c1, ?_⟩
          rw [emid]
          dsimp only
          omega
      · rw [List.foldl_append]
        rfl
      · omega

/-- Facts about every capture move returned by GenerateLegalMoves, obtained
by instantiating `dfsJumps_mem_spec` at the top of the jump search. -/
theorem generateLegalMoves_capture_facts (b : GameBoard) (player : Player) (m : Move)
    (hmem : m ∈ b.GenerateLegalMoves player) (hc : m.captures ≠ []) :
    InBounds m.start ∧ (∃ pc, getCell b.Board m.start = some pc ∧ pc.side = player) ∧
    (∀ q ∈ m.captures, InBounds q ∧ q.1 % 2 ≠ m.start.1 % 2) ∧
    InBounds (lastLanding m) ∧ (lastLanding m).1 % 2 = m.start.1 % 2 ∧
    ¬ JumpAvailable (moveEndGrid b.Board m) (lastLanding m) player := by
  rw [generateLegalMoves_eq] at hmem
  by_cases hcm : (b.GetPiecesOfPlayer player).flatMap
      (fun s => pieceCaptures b.Board player s) = []
  · rw [if_pos hcm, List.mem_flatMap] at hmem
    obtain ⟨s, hs, hm⟩ := hmem
    by_cases hpc : pieceCaptures b.Board player s = []
    · rw [if_pos hpc] at hm
      cases hg : getCell b.Board s with
      | none =>
        rw [hg] at hm
        cases hm
      | some pc =>
        rw [hg] at hm
        obtain ⟨d, hd, rfl, _, _⟩ := mem_simpleMovesFrom _ _ _ _ hm
        exact absurd rfl hc
    · rw [if_neg hpc] at hm
      cases hm
  · rw [if_neg hcm, List.mem_flatMap] at hmem
    obtain ⟨s, hs, hm⟩ := hmem
    rw [mem_GetPiecesOfPlayer] at hs
    obtain ⟨hsin, pc, hgets, hsidepc⟩ := hs
    unfold pieceCaptures at hm
    have hstart : m.start = s := (dfsJumps_mem_basic player s _ _ _ _ _ _ hm).1
    subst hstart
    have hb0 : b.Board = setCell (clearCells (setCell b.Board m.start none) []) m.start
        (some pc) := by
      show b.Board = setCell (setCell b.Board m.start none) m.start (some pc)
      rw [setCell_setCell_same, ← hgets, setCell_cancel _ _ hsin]
    have hvac0 : getCell (clearCells (setCell b.Board m.start none) []) m.start = none := by
      show getCell (setCell b.Board m.start none) m.start = none
      exact getCell_setCell_self _ _ _ hsin
    obtain ⟨f1, f2, f3, f4⟩ := dfsJumps_mem_spec player m.start b.Board pc hgets hsidepc hsin
      (countOpp b.Board player) b.Board m.start [] [] hsin rfl
      (by intro q hq; cases hq) rfl hb0 hvac0 (le_refl _) m hm
    exact ⟨hsin, ⟨pc, hgets, hsidepc⟩, f1, f2, f3, f4⟩

/-- C4: every capture move returned by GenerateLegalMoves is maximal — on
the board reached at the end of its jump chain (start square and captured
squares cleared, the moving piece on the final landing square) no further
jump is available, so no strict prefix of an extendable chain is ever
returned. -/
theorem generateLegalMoves_captures_maximal (b : GameBoard) (player : Player) (m : Move)
    (hmem : m ∈ b.GenerateLegalMoves player) (hc : m.captures ≠ []) :
    ¬ JumpAvailable (moveEndGrid b.Board m) (lastLanding m) player :=
  (generateLegalMoves_capture_facts b player m hmem hc).2.2.2.2.2

/-- Witness for C4 at the concrete board `capBoard` and its forced capture:
after the jump no further jump is available from the landing square. -/
theorem generateLegalMoves_captures_maximal_witness :
    capMove ∈ capBoard.GenerateLegalMoves Player.w ∧ capMove.captures ≠ [] ∧
      ¬ JumpAvailable (moveEndGrid capBoard.Board capMove) (lastLanding capMove) Player.w :=
  ⟨by decide, by decide,
    generateLegalMoves_captures_maximal capBoard Player.w capMove (by decide) (by decide)⟩

/- ================================================================
   ApplyMove: effect on the board (C5)
   ================================================================ -/

theorem pieceDirections_spec (pc : Piece) (d : Pos) (hd : d ∈ PieceDirections (some pc)) :
    (d.1 = 1 ∨ d.1 = -1) ∧ (d.2 = 1 ∨ d.2 = -1) := by
  cases pc <;>
    simp only [PieceDirections, List.mem_cons, List.not_mem_nil, or_false] at hd <;>
    rcases hd with rfl | rfl | rfl | rfl <;> exact (by decide)

/-- Every non-capture move returned by GenerateLegalMoves is a single
diagonal step of one of the side's pieces into an empty in-bounds square. -/
theorem generateLegalMoves_simple_facts (b : GameBoard) (player : Player) (m : Move)
    (hmem : m ∈ b.GenerateLegalMoves player) (hc : m.captures = []) :
    ∃ s pc d, m = ⟨s, [(s.1 + d.1, s.2 + d.2)], []⟩ ∧ InBounds s ∧
      getCell b.Board s = some pc ∧ pc.side = player ∧ d ∈ PieceDirections (some pc) ∧
      InBounds (s.1 + d.1, s.2 + d.2) ∧ getCell b.Board (s.1 + d.1, s.2 + d.2) = none ∧
      ((s.1 + d.1, s.2 + d.2) : Pos) ≠ s := by
  rw [generateLegalMoves_eq] at hmem
  by_cases hcm : (b.GetPiecesOfPlayer player).flatMap
      (fun s => pieceCaptures b.Board player s) = []
  · rw [if_pos hcm, List.mem_flatMap] at hmem
    obtain ⟨s, hs, hm⟩ := hmem
    by_cases hpc : pieceCaptures b.Board player s = []
    · rw [if_pos hpc] at hm
      cases hg : getCell b.Board s with
      | none =>
        rw [hg] at hm
        cases hm
      | some pc =>
        rw [hg] at hm
        obtain ⟨d, hd, rfl, htin, htnone⟩ := mem_simpleMovesFrom _ _ _ _ hm
        rw [mem_GetPiecesOfPlayer] at hs
        obtain ⟨hsin, pc2, hgets, hsidepc⟩ := hs
        have hpceq : pc2 = pc := by
          rw [hg] at hgets
          exact (Option.some.injEq _ _ ▸ hgets).symm
        subst hpceq
        obtain ⟨hd1, hd2⟩ := pieceDirections_spec pc2 d hd
        exact ⟨s, pc2, d, rfl, hsin, hg, hsidepc, hd, htin, htnone,
          ne_of_fst_ne (by dsimp only; omega)⟩
    · rw [if_neg hpc] at hm
      cases hm
  · rw [if_neg hcm, List.mem_flatMap] at hmem
    obtain ⟨s, hs, hm⟩ := hmem
    unfold pieceCaptures at hm
    exact absurd hc (dfsJumps_mem_basic player s _ _ _ _ _ _ hm).2.1

theorem getCell_promo_ne (g : Grid) (last : Pos) (piece : Option Piece) (x : Pos)
    (hx : x ≠ last) :
    getCell (if piece = some Piece.bm ∧ last.1 = 7 then
        setCell (if piece = some Piece.wm ∧ last.1 = 0 then
            setCell g last (some Piece.wk) else g) last (some Piece.bk)
      else if piece = some Piece.wm ∧ last.1 = 0 then
          setCell g last (some Piece.wk) else g) x
    = getCell g x := by
  by_cases h2 : piece = some Piece.bm ∧ last.1 = 7
  · rw [if_pos h2, getCell_setCell_ne _ _ _ _ hx]
    by_cases h1 : piece = some Piece.wm ∧ last.1 = 0
    · rw [if_pos h1, getCell_setCell_ne _ _ _ _ hx]
    · rw [if_neg h1]
  · rw [if_neg h2]
    by_cases h1 : piece = some Piece.wm ∧ last.1 = 0
    · rw [if_pos h1, getCell_setCell_ne _ _ _ _ hx]
    · rw [if_neg h1]

theorem getCell_promo_last (g : Grid) (last : Pos) (piece : Option Piece)
    (hin : InBounds last) (hg : getCell g last = piece) :
    getCell (if piece = some Piece.bm ∧ last.1 = 7 then
        setCell (if piece = some Piece.wm ∧ last.1 = 0 then
            setCell g last (some Piece.wk) else g) last (some Piece.bk)
      else if piece = some Piece.wm ∧ last.1 = 0 then
          setCell g last (some Piece.wk) else g) last
    = promoteCell piece last := by
  by_cases h2 : piece = some Piece.bm ∧ last.1 = 7
  · obtain ⟨he, hr⟩ := h2
    subst he
    rw [if_pos ⟨rfl, hr⟩, getCell_setCell_self _ _ _ hin]
    simp [promoteCell, hr]
  · rw [if_neg h2]
    by_cases h1 : piece = some Piece.wm ∧ last.1 = 0
    · obtain ⟨he, hr⟩ := h1
      subst he
      rw [if_pos ⟨rfl, hr⟩, getCell_setCell_self _ _ _ hin]
      simp [promoteCell, hr]
    · rw [if_neg h1, hg]
      rcases piece with _ | pc
      · rfl
      · cases pc
        · have h0 : last.1 ≠ 0 := fun e => h1 ⟨rfl, e⟩
          simp [promoteCell, h0]
        · rfl
        · have h7 : last.1 ≠ 7 := fun e => h2 ⟨rfl, e⟩
          simp [promoteCell, h7]
        · rfl

/-- The board produced by ApplyMove, with its let-bindings unfolded. -/
theorem applyMove_board (b : GameBoard) (m : Move) :
    (b.ApplyMove m).Board =
      (if getCell b.Board m.start = some Piece.bm ∧ (lastLanding m).1 = 7 then
        setCell (if getCell b.Board m.start = some Piece.wm ∧ (lastLanding m).1 = 0 then
            setCell (clearCells (setCell (setCell b.Board m.start none) (lastLanding m)
              (getCell b.Board m.start)) m.captures) (lastLanding m) (some Piece.wk)
          else clearCells (setCell (setCell b.Board m.start none) (lastLanding m)
            (getCell b.Board m.start)) m.captures) (lastLanding m) (some Piece.bk)
      else if getCell b.Board m.start = some Piece.wm ∧ (lastLanding m).1 = 0 then
          setCell (clearCells (setCell (setCell b.Board m.start none) (lastLanding m)
            (getCell b.Board m.start)) m.captures) (lastLanding m) (some Piece.wk)
        else clearCells (setCell (setCell b.Board m.start none) (lastLanding m)
          (getCell b.Board m.start)) m.captures) :=
  rfl

/-- C5 counterexample: the claim "the start square is empty" fails as
stated.  On `cycBoard` the forced multi-jump is a 4-capture cycle returning
to its start square, and after ApplyMove the start square still holds the
moving white man. -/
theorem applyMove_start_not_cleared_cyclic :
    cycMove ∈ cycBoard.GenerateLegalMoves Player.w ∧ lastLanding cycMove = cycMove.start ∧
      getCell (cycBoard.ApplyMove cycMove).Board cycMove.start = some Piece.wm :=
  ⟨by decide, by decide, by decide⟩

/-- C5 (amended): for every board and every move returned by
GenerateLegalMoves, ApplyMove clears the start square unless the final
landing square is the start square itself (a cyclic multi-jump, in which
case the moving piece sits there); the moving piece ends on the final entry
of the sequence, promoted to a king exactly when it was a man finishing on
the farthest rank (row 0 for white, row 7 for black); every captured square
is empty; and the side to move flips to the opponent. -/
theorem applyMove_spec_amended (b : GameBoard) (player : Player) (m : Move)
    (hmem : m ∈ b.GenerateLegalMoves player) :
    (lastLanding m ≠ m.start → getCell (b.ApplyMove m).Board m.start = none) ∧
    getCell (b.ApplyMove m).Board (lastLanding m) =
      promoteCell (getCell b.Board m.start) (lastLanding m) ∧
    (∀ q ∈ m.captures, getCell (b.ApplyMove m).Board q = none) ∧
    (b.ApplyMove m).PlayerToMove = OtherStuff.OpponentOf b.PlayerToMove := by
  by_cases hc : m.captures = []
  · obtain ⟨s, pc, d, rfl, hsin, hgs, hsidepc, hd, htin, htnone, htne⟩ :=
      generateLegalMoves_simple_facts b player m hmem hc
    have hlast : lastLanding ⟨s, [(s.1 + d.1, s.2 + d.2)], []⟩ = (s.1 + d.1, s.2 + d.2) := rfl
    refine ⟨?_, ?_, ?_, rfl⟩
    · intro hne
      rw [applyMove_board]
      rw [hlast] at hne ⊢
      rw [getCell_promo_ne _ _ _ _ (Ne.symm hne)]
      show getCell (clearCells (setCell (setCell b.Board s none) (s.1 + d.1, s.2 + d.2)
        (getCell b.Board s)) []) s = none
      show getCell (setCell (setCell b.Board s none) (s.1 + d.1, s.2 + d.2)
        (getCell b.Board s)) s = none
      rw [getCell_setCell_ne _ _ _ _ (Ne.symm hne), getCell_setCell_self _ _ _ hsin]
    · rw [applyMove_board, hlast]
      apply getCell_promo_last _ _ _ htin
      show getCell (setCell (setCell b.Board s none) (s.1 + d.1, s.2 + d.2)
        (getCell b.Board s)) (s.1 + d.1, s.2 + d.2) = getCell b.Board s
      exact getCell_setCell_self _ _ _ htin
    · intro q hq
      cases hq
  · obtain ⟨hsin, ⟨pc, hgs, hsidepc⟩, hcaps, hlin, hlpar, _⟩ :=
      generateLegalMoves_capture_facts b player m hmem hc
    have hlast_notcap : lastLanding m ∉ m.captures := by
      intro hq
      exact absurd hlpar (by
        have := (hcaps _ hq).2
        omega)
    have hstart_notcap : m.start ∉ m.captures := by
      intro hq
      exact absurd rfl (hcaps _ hq).2
    refine ⟨?_, ?_, ?_, rfl⟩
    · intro hne
      rw [applyMove_board, getCell_promo_ne _ _ _ _ (Ne.symm hne),
        getCell_clearCells_not_mem _ _ _ hstart_notcap,
        getCell_setCell_ne _ _ _ _ (Ne.symm hne), getCell_setCell_self _ _ _ hsin]
    · rw [applyMove_board]
      apply getCell_promo_last _ _ _ hlin
      rw [getCell_clearCells_not_mem _ _ _ hlast_notcap, getCell_setCell_self _ _ _ hlin]
    · intro q hq
      have hqne : q ≠ lastLanding m := by
        intro he
        exact hlast_notcap (he ▸ hq)
      rw [applyMove_board, getCell_promo_ne _ _ _ _ hqne,
        getCell_clearCells_mem _ _ _ hq]

/-- Witness for the amended C5 at `capBoard` and its forced capture. -/
theorem applyMove_spec_amended_witness :
    capMove ∈ capBoard.GenerateLegalMoves Player.w ∧
      getCell (capBoard.ApplyMove capMove).Board capMove.start = none ∧
      getCell (capBoard.ApplyMove capMove).Board (lastLanding capMove) =
        promoteCell (getCell capBoard.Board capMove.start) (lastLanding capMove) ∧
      (∀ q ∈ capMove.captures, getCell (capBoard.ApplyMove capMove).Board q = none) ∧
      (capBoard.ApplyMove capMove).PlayerToMove =
        OtherStuff.OpponentOf capBoard.PlayerToMove := by
  have h := applyMove_spec_amended capBoard Player.w capMove (by decide)
  exact ⟨by decide, h.1 (by decide), h.2.1, h.2.2.1, h.2.2.2⟩

/- ================================================================
   C6: ApplyMove does not touch its input board
   ================================================================ -/

/-- C6: in the state-passing embedding `ApplyMovePair` (the pair is
(self, nb), with every assignment of the source writing through the clone
`nb`), the input board is returned entirely unchanged — same cells, same
side to move, hence the same GoalTest and GenerateLegalMoves results — the
second component is exactly the ApplyMove successor, and that successor is
a distinct board value (its side to move is flipped). -/
theorem applyMove_preserves_input (b : GameBoard) (m : Move) :
    (b.ApplyMovePair m).1 = b ∧
    (b.ApplyMovePair m).1.GoalTest = b.GoalTest ∧
    (∀ p : Player, (b.ApplyMovePair m).1.GenerateLegalMoves p = b.GenerateLegalMoves p) ∧
    (∀ q : Pos, getCell (b.ApplyMovePair m).1.Board q = getCell b.Board q) ∧
    (b.ApplyMovePair m).2 = b.ApplyMove m ∧
    (b.ApplyMovePair m).2 ≠ b := by
  refine ⟨rfl, rfl, fun _ => rfl, fun _ => rfl, rfl, ?_⟩
  intro he
  have hp : OtherStuff.OpponentOf b.PlayerToMove = b.PlayerToMove :=
    congrArg GameBoard.PlayerToMove he
  cases hb : b.PlayerToMove <;> rw [hb] at hp <;> exact absurd hp (by decide)

/- ================================================================
   C7: unknown strategy names — construction vs ChooseMove
   ================================================================ -/

/-- C7 counterexample: constructing the toolbox with the unrecognized
strategy name "Bogus" is NOT a construction-time failure — `__init__`
accepts any string and stores it — and the ValueError is raised only later,
by ChooseMove, after legal-move generation. -/
theorem mkSearchToolBox_accepts_unknown_strategy :
    mkSearchToolBox "Bogus" 3 = ⟨"Bogus", 3, false⟩ ∧
      (mkSearchToolBox "Bogus" 3).ChooseMove startingBoard =
        Except.error "Unknown strategy: Bogus" :=
  ⟨by decide, by decide⟩

/-- C7 (amended): an unrecognized strategy name is accepted at construction
time; the failure (ValueError "Unknown strategy: ...") happens at the first
ChooseMove call on a board whose side to move has a legal move (with no
legal moves, ChooseMove returns "no move" before reaching the strategy
dispatch). -/
theorem chooseMove_unknown_strategy_errors (s : String) (mp : ℕ) (b : GameBoard)
    (h1 : s ≠ "Minimax") (h2 : s ≠ "AlphaBeta") (h3 : s ≠ "AlphaBetaOrdering")
    (hlegal : b.GenerateLegalMoves b.PlayerToMove ≠ []) :
    (mkSearchToolBox s mp).ChooseMove b = Except.error ("Unknown strategy: " ++ s) := by
  simp only [SearchToolBox.ChooseMove, mkSearchToolBox]
  rw [if_neg hlegal, if_neg h1, if_neg h2, if_neg h3]

/-- Witness for the amended C7: "Bogus" at the starting position. -/
theorem chooseMove_unknown_strategy_errors_witness :
    (mkSearchToolBox "Bogus" 2).ChooseMove startingBoard =
      Except.error ("Unknown strategy: " ++ "Bogus") :=
  chooseMove_unknown_strategy_errors "Bogus" 2 startingBoard (by decide) (by decide)
    (by decide) (by decide)

/- ================================================================
   C3: ChooseMove on the standard starting position, ply limit 1
   ================================================================ -/

set_option maxHeartbeats 4000000 in
/-- C3 (evaluation at the failing input): on the standard starting position
— white to move, as the game begins — with ply limit 1, ChooseMove returns
NO move for each of the three strategies, because `bestVal` is initialized
to +inf for a root whose side to move is 'w' while every strategy updates
the best move only on `val > bestVal`.  This contradicts the spec scenario
"starting position, ply limit 1, any strategy → returns a simple move". -/
theorem chooseMove_start_white_returns_no_move :
    ((mkSearchToolBox "Minimax" 1).ChooseMove startingBoard =
        Except.ok ((none : Option Move), (⊤ : Val))) ∧
      ((mkSearchToolBox "AlphaBeta" 1).ChooseMove startingBoard =
        Except.ok ((none : Option Move), (⊤ : Val))) ∧
      ((mkSearchToolBox "AlphaBetaOrdering" 1).ChooseMove startingBoard =
        Except.ok ((none : Option Move), (⊤ : Val))) :=
  ⟨by decide, by decide, by decide⟩

/- ================================================================
   C1: the three strategies agree on the root best value
   ================================================================ -/

theorem threeCases_self (m alpha beta : Val) : ThreeCases m m alpha beta :=
  ⟨fun h => h, fun _ _ => rfl, fun h => h⟩

theorem abMaxStep_frozen (ab : Val → Move → Val) (beta : Val) :
    ∀ (t : List Move) (v a : Val), t.foldl (abMaxStep ab beta) (v, true, a) = (v, true, a) := by
  intro t
  induction t with
  | nil => intro v a; rfl
  | cons mv t ih =>
    intro v a
    rw [List.foldl_cons, show abMaxStep ab beta (v, true, a) mv = (v, true, a) from rfl]
    exact ih v a

theorem abMinStep_frozen (ab : Val → Move → Val) (alpha : Val) :
    ∀ (t : List Move) (v a : Val), t.foldl (abMinStep ab alpha) (v, true, a) = (v, true, a) := by
  intro t
  induction t with
  | nil => intro v a; rfl
  | cons mv t ih =>
    intro v a
    rw [List.foldl_cons, show abMinStep ab alpha (v, true, a) mv = (v, true, a) from rfl]
    exact ih v a

theorem abMaxStep_go (ab : Val → Move → Val) (beta : Val) (v a : Val) (mv : Move) :
    abMaxStep ab beta (v, false, a) mv =
      (if beta ≤ max v (ab a mv) then (max v (ab a mv), true, a)
       else (max v (ab a mv), false, max a (max v (ab a mv)))) := rfl

theorem abMinStep_go (ab : Val → Move → Val) (alpha : Val) (v bt : Val) (mv : Move) :
    abMinStep ab alpha (v, false, bt) mv =
      (if min v (ab bt mv) ≤ alpha then (min v (ab bt mv), true, bt)
       else (min v (ab bt mv), false, min bt (min v (ab bt mv)))) := rfl

theorem init_le_foldl_max (g : Move → Val) : ∀ (l : List Move) (a : Val),
    a ≤ l.foldl (fun w x => max w (g x)) a := by
  intro l
  induction l with
  | nil => intro a; exact le_refl a
  | cons x t ih =>
    intro a
    rw [List.foldl_cons]
    exact le_trans (le_max_left a (g x)) (ih _)

theorem foldl_min_le_init (g : Move → Val) : ∀ (l : List Move) (a : Val),
    l.foldl (fun w x => min w (g x)) a ≤ a := by
  intro l
  induction l with
  | nil => intro a; exact le_refl a
  | cons x t ih =>
    intro a
    rw [List.foldl_cons]
    exact le_trans (ih _) (min_le_left a (g x))

theorem foldl_max_top (g : Move → Val) : ∀ l : List Move,
    l.foldl (fun w x => max w (g x)) ⊤ = ⊤ := by
  intro l
  induction l with
  | nil => rfl
  | cons x t ih =>
    rw [List.foldl_cons, max_eq_left le_top]
    exact ih

theorem foldl_max_perm (g : Move → Val) {l1 l2 : List Move} (h : l1.Perm l2) (a : Val) :
    l1.foldl (fun w x => max w (g x)) a = l2.foldl (fun w x => max w (g x)) a := by
  haveI : RightCommutative (fun (w : Val) x => max w (g x)) :=
    ⟨fun b x y => by
      show max (max b (g x)) (g y) = max (max b (g y)) (g x)
      rw [max_assoc, max_comm (g x) (g y), max_assoc]⟩
  exact h.foldl_eq a

theorem insertBy_perm {α : Type} (le : α → α → Bool) (x : α) :
    ∀ l : List α, (insertBy le x l).Perm (x :: l) := by
  intro l
  induction l with
  | nil => exact List.Perm.refl _
  | cons y ys ih =>
    unfold insertBy
    by_cases h : le x y
    · rw [if_pos h]
    · rw [if_neg h]
      exact (ih.cons y).trans (List.Perm.swap x y ys)

theorem sortBy_perm {α : Type} (le : α → α → Bool) :
    ∀ l : List α, (sortBy le l).Perm l := by
  intro l
  induction l with
  | nil => exact List.Perm.refl _
  | cons x xs ih =>
    unfold sortBy
    exact (insertBy_perm le x (sortBy le xs)).trans (ih.cons x)

theorem orderDesc_perm (b : GameBoard) (root : Player) (moves : List Move) :
    (orderDesc b root moves).Perm moves := by
  unfold orderDesc
  have h1 := (sortBy_perm (fun x y => decide (y.1 ≤ x.1))
    (moves.map (fun mv => ((b.ApplyMove mv).EvaluateFor root, mv)))).map
    (fun x : ℤ × Move => x.2)
  have h2 : (moves.map (fun mv => ((b.ApplyMove mv).EvaluateFor root, mv))).map
      (fun x : ℤ × Move => x.2) = moves := by
    rw [List.map_map]
    exact List.map_id _
  rw [h2] at h1
  exact h1

theorem orderAsc_perm (b : GameBoard) (root : Player) (moves : List Move) :
    (orderAsc b root moves).Perm moves := by
  unfold orderAsc
  have h1 := (sortBy_perm (fun x y => decide (x.1 ≤ y.1))
    (moves.map (fun mv => ((b.ApplyMove mv).EvaluateFor root, mv)))).map
    (fun x : ℤ × Move => x.2)
  have h2 : (moves.map (fun mv => ((b.ApplyMove mv).EvaluateFor root, mv))).map
      (fun x : ℤ × Move => x.2) = moves := by
    rw [List.map_map]
    exact List.map_id _
  rw [h2] at h1
  exact h1

/-- Bracketing invariant of the `_AlphaBetaMax` move loop.  `cv` gives the
exact minimax value of each child and `ab` its bounded search at the
current alpha; the invariant relates the fail-soft accumulator `v` and the
tightened alpha to the exact maximum `P` of the children already scanned:
either everything so far is at most the original alpha, or `v` equals `P`
exactly and alpha has been tightened to it. -/
theorem abMaxLoop_spec (beta alpha0 : Val) (cv : Move → Val) (ab : Val → Move → Val)
    (hchild : ∀ a mv, a < beta → ThreeCases (ab a mv) (cv mv) a beta)
    (hab : alpha0 < beta) :
    ∀ (l : List Move) (P v a : Val),
      ((P ≤ alpha0 ∧ v ≤ alpha0 ∧ a = alpha0) ∨
        (alpha0 < P ∧ P < beta ∧ v = P ∧ a = P)) →
      ThreeCases ((l.foldl (abMaxStep ab beta) (v, false, a)).1)
        (l.foldl (fun w mv => max w (cv mv)) P) alpha0 beta := by
  intro l
  induction l with
  | nil =>
    intro P v a hinv
    rcases hinv with ⟨h1, h2, _⟩ | ⟨h1, h2, h3, _⟩
    · exact ⟨fun _ => h2,
        fun hlt _ => absurd hlt (not_lt.mpr h1),
        fun hge => absurd (le_trans hge h1) (not_le.mpr hab)⟩
    · rw [show ([].foldl (abMaxStep ab beta) (v, false, a)).1 = v from rfl, h3]
      exact ⟨fun hle => absurd h1 (not_lt.mpr hle),
        fun _ _ => rfl,
        fun hge => absurd hge (not_le.mpr h2)⟩
  | cons mv t ih =>
    intro P v a hinv
    rw [List.foldl_cons, List.foldl_cons, abMaxStep_go]
    rcases hinv with ⟨h1, h2, h3⟩ | ⟨h1, h2, h3, h4⟩
    · rw [h3]
      have hch := hchild alpha0 mv hab
      by_cases hm1 : cv mv ≤ alpha0
      · have hval : ab alpha0 mv ≤ alpha0 := hch.1 hm1
        have hv2 : max v (ab alpha0 mv) ≤ alpha0 := max_le h2 hval
        rw [if_neg (not_le.mpr (lt_of_le_of_lt hv2 hab)), max_eq_left hv2]
        exact ih (max P (cv mv)) _ _ (Or.inl ⟨max_le h1 hm1, hv2, rfl⟩)
      · push_neg at hm1
        by_cases hm2 : cv mv < beta
        · have hval : ab alpha0 mv = cv mv := hch.2.1 hm1 hm2
          rw [hval]
          have hv2 : max v (cv mv) = cv mv := max_eq_right (le_of_lt (lt_of_le_of_lt h2 hm1))
          rw [hv2, if_neg (not_le.mpr hm2), max_eq_right (le_of_lt hm1)]
          refine ih (max P (cv mv)) _ _ (Or.inr ?_)
          rw [max_eq_right (le_of_lt (lt_of_le_of_lt h1 hm1))]
          exact ⟨hm1, hm2, rfl, rfl⟩
        · push_neg at hm2
          have hval : beta ≤ ab alpha0 mv := hch.2.2 hm2
          have hv2 : beta ≤ max v (ab alpha0 mv) := le_trans hval (le_max_right _ _)
          rw [if_pos hv2, abMaxStep_frozen]
          have hMge : beta ≤ t.foldl (fun w mv2 => max w (cv mv2)) (max P (cv mv)) :=
            le_trans (le_trans hm2 (le_max_right P (cv mv))) (init_le_foldl_max cv t _)
          exact ⟨fun hle => absurd (le_trans hMge hle) (not_le.mpr hab),
            fun _ hlt => absurd (lt_of_le_of_lt hMge hlt) (lt_irrefl beta),
            fun _ => hv2⟩
    · rw [h3, h4]
      have hch := hchild P mv h2
      by_cases hm1 : cv mv ≤ P
      · have hval : ab P mv ≤ P := hch.1 hm1
        have hv2 : max P (ab P mv) = P := max_eq_left hval
        rw [hv2, if_neg (not_le.mpr h2), max_self]
        refine ih (max P (cv mv)) _ _ (Or.inr ?_)
        rw [max_eq_left hm1]
        exact ⟨h1, h2, rfl, rfl⟩
      · push_neg at hm1
        by_cases hm2 : cv mv < beta
        · have hval : ab P mv = cv mv := hch.2.1 hm1 hm2
          rw [hval]
          have hv2 : max P (cv mv) = cv mv := max_eq_right (le_of_lt hm1)
          rw [hv2, if_neg (not_le.mpr hm2), max_eq_right (le_of_lt hm1)]
          exact ih (cv mv) _ _ (Or.inr ⟨lt_trans h1 hm1, hm2, rfl, rfl⟩)
        · push_neg at hm2
          have hval : beta ≤ ab P mv := hch.2.2 hm2
          have hv2 : beta ≤ max P (ab P mv) := le_trans hval (le_max_right _ _)
          rw [if_pos hv2, abMaxStep_frozen]
          have hMge : beta ≤ t.foldl (fun w mv2 => max w (cv mv2)) (max P (cv mv)) :=
            le_trans (le_trans hm2 (le_max_right P (cv mv))) (init_le_foldl_max cv t _)
          exact ⟨fun hle => absurd (le_trans hMge hle) (not_le.mpr hab),
            fun _ hlt => absurd (lt_of_le_of_lt hMge hlt) (lt_irrefl beta),
            fun _ => hv2⟩

/-- Bracketing invariant of the `_AlphaBetaMin` move loop, dual to
`abMaxLoop_spec`. -/
theorem abMinLoop_spec (alpha0 beta0 : Val) (cv : Move → Val) (ab : Val → Move → Val)
    (hchild : ∀ bt mv, alpha0 < bt → ThreeCases (ab bt mv) (cv mv) alpha0 bt)
    (hab : alpha0 < beta0) :
    ∀ (l : List Move) (P v bt : Val),
      ((beta0 ≤ P ∧ beta0 ≤ v ∧ bt = beta0) ∨
        (alpha0 < P ∧ P < beta0 ∧ v = P ∧ bt = P)) →
      ThreeCases ((l.foldl (abMinStep ab alpha0) (v, false, bt)).1)
        (l.foldl (fun w mv => min w (cv mv)) P) alpha0 beta0 := by
  intro l
  induction l with
  | nil =>
    intro P v bt hinv
    rcases hinv with ⟨h1, h2, _⟩ | ⟨h1, h2, h3, _⟩
    · exact ⟨fun hle => absurd (le_trans h1 hle) (not_le.mpr hab),
        fun _ hlt => absurd (lt_of_le_of_lt h1 hlt) (lt_irrefl beta0),
        fun _ => h2⟩
    · rw [show ([].foldl (abMinStep ab alpha0) (v, false, bt)).1 = v from rfl, h3]
      exact ⟨fun hle => absurd h1 (not_lt.mpr hle),
        fun _ _ => rfl,
        fun hge => absurd hge (not_le.mpr h2)⟩
  | cons mv t ih =>
    intro P v bt hinv
    rw [List.foldl_cons, List.foldl_cons, abMinStep_go]
    rcases hinv with ⟨h1, h2, h3⟩ | ⟨h1, h2, h3, h4⟩
    · rw [h3]
      have hch := hchild beta0 mv hab
      by_cases hm1 : beta0 ≤ cv mv
      · have hval : beta0 ≤ ab beta0 mv := hch.2.2 hm1
        have hv2 : beta0 ≤ min v (ab beta0 mv) := le_min h2 hval
        rw [if_neg (not_le.mpr (lt_of_lt_of_le hab hv2)), min_eq_left hv2]
        exact ih (min P (cv mv)) _ _ (Or.inl ⟨le_min h1 hm1, hv2, rfl⟩)
      · push_neg at hm1
        by_cases hm2 : alpha0 < cv mv
        · have hval : ab beta0 mv = cv mv := hch.2.1 hm2 hm1
          rw [hval]
          have hv2 : min v (cv mv) = cv mv := min_eq_right (le_of_lt (lt_of_lt_of_le hm1 h2))
          rw [hv2, if_neg (not_le.mpr hm2), min_eq_right (le_of_lt hm1)]
          refine ih (min P (cv mv)) _ _ (Or.inr ?_)
          rw [min_eq_right (le_of_lt (lt_of_lt_of_le hm1 h1))]
          exact ⟨hm2, hm1, rfl, rfl⟩
        · push_neg at hm2
          have hval : ab beta0 mv ≤ alpha0 := hch.1 hm2
          have hv2 : min v (ab beta0 mv) ≤ alpha0 := le_trans (min_le_right _ _) hval
          rw [if_pos hv2, abMinStep_frozen]
          have hMle : t.foldl (fun w mv2 => min w (cv mv2)) (min P (cv mv)) ≤ alpha0 :=
            le_trans (foldl_min_le_init cv t _) (le_trans (min_le_right P (cv mv)) hm2)
          exact ⟨fun _ => hv2,
            fun hlt _ => absurd (lt_of_lt_of_le hlt hMle) (lt_irrefl alpha0),
            fun hge => absurd (le_trans hge hMle) (not_le.mpr hab)⟩
    · rw [h3, h4]
      have hch := hchild P mv h1
      by_cases hm1 : P ≤ cv mv
      · have hval : P ≤ ab P mv := hch.2.2 hm1
        have hv2 : min P (ab P mv) = P := min_eq_left hval
        rw [hv2, if_neg (not_le.mpr h1), min_self]
        refine ih (min P (cv mv)) _ _ (Or.inr ?_)
        rw [min_eq_left hm1]
        exact ⟨h1, h2, rfl, rfl⟩
      · push_neg at hm1
        by_cases hm2 : alpha0 < cv mv
        · have hval : ab P mv = cv mv := hch.2.1 hm2 hm1
          rw [hval]
          have hv2 : min P (cv mv) = cv mv := min_eq_right (le_of_lt hm1)
          rw [hv2, if_neg (not_le.mpr hm2), min_eq_right (le_of_lt hm1)]
          exact ih (cv mv) _ _ (Or.inr ⟨hm2, lt_trans hm1 h2, rfl, rfl⟩)
        · push_neg at hm2
          have hval : ab P mv ≤ alpha0 := hch.1 hm2
          have hv2 : min P (ab P mv) ≤ alpha0 := le_trans (min_le_right _ _) hval
          rw [if_pos hv2, abMinStep_frozen]
          have hMle : t.foldl (fun w mv2 => min w (cv mv2)) (min P (cv mv)) ≤ alpha0 :=
            le_trans (foldl_min_le_init cv t _) (le_trans (min_le_right P (cv mv)) hm2)
          exact ⟨fun _ => hv2,
            fun hlt _ => absurd (lt_of_lt_of_le hlt hMle) (lt_irrefl alpha0),
            fun hge => absurd (le_trans hge hMle) (not_le.mpr hab)⟩

theorem foldl_min_perm (g : Move → Val) {l1 l2 : List Move} (h : l1.Perm l2) (a : Val) :
    l1.foldl (fun w x => min w (g x)) a = l2.foldl (fun w x => min w (g x)) a := by
  haveI : RightCommutative (fun (w : Val) x => min w (g x)) :=
    ⟨fun b x y => by
      show min (min b (g x)) (g y) = min (min b (g y)) (g x)
      rw [min_assoc, min_comm (g x) (g y), min_assoc]⟩
  exact h.foldl_eq a

theorem minimaxValue_goal (fuel : ℕ) (isMax : Bool) (b : GameBoard) (root wn : Player)
    (hg : b.GoalTest = some wn) :
    minimaxValue fuel isMax b root = if wn = root then (⊤ : Val) else ⊥ := by
  cases fuel with
  | zero =>
    conv_lhs => rw [minimaxValue]
    rw [hg]
  | succ f =>
    conv_lhs => rw [minimaxValue]
    rw [hg]

theorem minimaxValue_zero (isMax : Bool) (b : GameBoard) (root : Player)
    (hg : b.GoalTest = none) :
    minimaxValue 0 isMax b root = finV (b.EvaluateFor root) := by
  conv_lhs => rw [minimaxValue]
  rw [hg]

theorem minimaxValue_succ_max (f : ℕ) (b : GameBoard) (root : Player)
    (hg : b.GoalTest = none) :
    minimaxValue (f + 1) true b root =
      (b.GenerateLegalMoves b.PlayerToMove).foldl
        (fun v mv => max v (minimaxValue f false (b.ApplyMove mv) root)) ⊥ := by
  conv_lhs => rw [minimaxValue]
  rw [hg]
  rfl

theorem minimaxValue_succ_min (f : ℕ) (b : GameBoard) (root : Player)
    (hg : b.GoalTest = none) :
    minimaxValue (f + 1) false b root =
      (b.GenerateLegalMoves b.PlayerToMove).foldl
        (fun v mv => min v (minimaxValue f true (b.ApplyMove mv) root)) ⊤ := by
  conv_lhs => rw [minimaxValue]
  rw [hg]
  rfl

theorem alphaBetaValue_goal (fuel : ℕ) (isMax : Bool) (b : GameBoard) (alpha beta : Val)
    (root wn : Player) (ord : Bool) (hg : b.GoalTest = some wn) :
    alphaBetaValue fuel isMax b alpha beta root ord = if wn = root then (⊤ : Val) else ⊥ := by
  cases fuel with
  | zero =>
    conv_lhs => rw [alphaBetaValue]
    rw [hg]
  | succ f =>
    conv_lhs => rw [alphaBetaValue]
    rw [hg]

theorem alphaBetaValue_zero (isMax : Bool) (b : GameBoard) (alpha beta : Val)
    (root : Player) (ord : Bool) (hg : b.GoalTest = none) :
    alphaBetaValue 0 isMax b alpha beta root ord = finV (b.EvaluateFor root) := by
  conv_lhs => rw [alphaBetaValue]
  rw [hg]

theorem alphaBetaValue_succ_max (f : ℕ) (b : GameBoard) (alpha beta : Val)
    (root : Player) (ord : Bool) (hg : b.GoalTest = none) :
    alphaBetaValue (f + 1) true b alpha beta root ord =
      ((if ord then orderDesc b root (b.GenerateLegalMoves b.PlayerToMove)
          else b.GenerateLegalMoves b.PlayerToMove).foldl
        (abMaxStep (fun a mv => alphaBetaValue f false (b.ApplyMove mv) a beta root ord) beta)
        ((⊥ : Val), false, alpha)).1 := by
  conv_lhs => rw [alphaBetaValue]
  rw [hg]
  rfl

theorem alphaBetaValue_succ_min (f : ℕ) (b : GameBoard) (alpha beta : Val)
    (root : Player) (ord : Bool) (hg : b.GoalTest = none) :
    alphaBetaValue (f + 1) false b alpha beta root ord =
      ((if ord then orderAsc b root (b.GenerateLegalMoves b.PlayerToMove)
          else b.GenerateLegalMoves b.PlayerToMove).foldl
        (abMinStep (fun bt mv => alphaBetaValue f true (b.ApplyMove mv) alpha bt root ord)
          alpha)
        ((⊤ : Val), false, beta)).1 := by
  conv_lhs => rw [alphaBetaValue]
  rw [hg]
  rfl

/-- Soundness of the alpha-beta search against plain minimax: at every node
and every nonempty window, the bounded value brackets the exact value in
the classical three-way sense, with or without move ordering (ordering only
permutes the children, and max/min folds are permutation-invariant). -/
theorem alphaBeta_bracket : ∀ (fuel : ℕ) (isMax : Bool) (b : GameBoard) (alpha beta : Val)
    (root : Player) (ord : Bool), alpha < beta →
    ThreeCases (alphaBetaValue fuel isMax b alpha beta root ord)
      (minimaxValue fuel isMax b root) alpha beta := by
  intro fuel
  induction fuel with
  | zero =>
    intro isMax b alpha beta root ord hab
    cases hg : b.GoalTest with
    | some wn =>
      rw [alphaBetaValue_goal 0 isMax b alpha beta root wn ord hg,
        minimaxValue_goal 0 isMax b root wn hg]
      exact threeCases_self _ _ _
    | none =>
      rw [alphaBetaValue_zero isMax b alpha beta root ord hg, minimaxValue_zero isMax b root hg]
      exact threeCases_self _ _ _
  | succ f ih =>
    intro isMax b alpha beta root ord hab
    cases hg : b.GoalTest with
    | some wn =>
      rw [alphaBetaValue_goal (f + 1) isMax b alpha beta root wn ord hg,
        minimaxValue_goal (f + 1) isMax b root wn hg]
      exact threeCases_self _ _ _
    | none =>
      cases isMax with
      | true =>
        rw [alphaBetaValue_succ_max f b alpha beta root ord hg,
          minimaxValue_succ_max f b root hg]
        have hperm : (if ord then orderDesc b root (b.GenerateLegalMoves b.PlayerToMove)
            else b.GenerateLegalMoves b.PlayerToMove).Perm
            (b.GenerateLegalMoves b.PlayerToMove) := by
          cases ord with
          | false => exact List.Perm.refl _
          | true => exact orderDesc_perm b root _
        rw [← foldl_max_perm (fun mv => minimaxValue f false (b.ApplyMove mv) root) hperm ⊥]
        exact abMaxLoop_spec beta alpha
          (fun mv => minimaxValue f false (b.ApplyMove mv) root)
          (fun a mv => alphaBetaValue f false (b.ApplyMove mv) a beta root ord)
          (fun a mv ha => ih false (b.ApplyMove mv) a beta root ord ha) hab _ ⊥ ⊥ alpha
          (Or.inl ⟨bot_le, bot_le, rfl⟩)
      | false =>
        rw [alphaBetaValue_succ_min f b alpha beta root ord hg,
          minimaxValue_succ_min f b root hg]
        have hperm : (if ord then orderAsc b root (b.GenerateLegalMoves b.PlayerToMove)
            else b.GenerateLegalMoves b.PlayerToMove).Perm
            (b.GenerateLegalMoves b.PlayerToMove) := by
          cases ord with
          | false => exact List.Perm.refl _
          | true => exact orderAsc_perm b root _
        rw [← foldl_min_perm (fun mv => minimaxValue f true (b.ApplyMove mv) root) hperm ⊤]
        exact abMinLoop_spec alpha beta
          (fun mv => minimaxValue f true (b.ApplyMove mv) root)
          (fun bt mv => alphaBetaValue f true (b.ApplyMove mv) alpha bt root ord)
          (fun bt mv hbt => ih true (b.ApplyMove mv) alpha bt root ord hbt) hab _ ⊤ ⊤ beta
          (Or.inl ⟨le_top, le_top, rfl⟩)

theorem rootMinimaxStep_eq (cv : Move → Val) (om : Option Move) (v : Val) (mv : Move) :
    rootMinimaxStep cv (om, v) mv =
      if v < cv mv then ((some mv : Option Move), cv mv) else (om, v) := rfl

/-- The best value tracked by the shared root loop of ChooseMove is the
running maximum of the candidate values: `val > bestVal` updates exactly
when the maximum strictly increases. -/
theorem rootFold_minimax_snd (cv : Move → Val) :
    ∀ (l : List Move) (om : Option Move) (v : Val),
      (l.foldl (rootMinimaxStep cv) (om, v)).2 =
        l.foldl (fun w mv => max w (cv mv)) v := by
  intro l
  induction l with
  | nil => intro om v; rfl
  | cons mv t ih =>
    intro om v
    rw [List.foldl_cons, List.foldl_cons, rootMinimaxStep_eq]
    by_cases h : v < cv mv
    · rw [if_pos h, max_eq_right (le_of_lt h)]
      exact ih _ _
    · rw [if_neg h, max_eq_left (not_lt.mp h)]
      exact ih _ _

theorem rootABStep_pos (ab : Val → Move → Val) (om : Option Move) (bv a : Val) (mv : Move)
    (h : bv < ab a mv) :
    rootABStep ab (om, bv, a) mv = ((some mv : Option Move), ab a mv, max a (ab a mv)) := by
  simp only [rootABStep]
  rw [if_pos h]

theorem rootABStep_neg (ab : Val → Move → Val) (om : Option Move) (bv a : Val) (mv : Move)
    (h : ¬ bv < ab a mv) :
    rootABStep ab (om, bv, a) mv = (om, bv, max a bv) := by
  simp only [rootABStep]
  rw [if_neg h]

/-- A white root never updates: `bestVal` stays at its +inf initialization
through the whole alpha-beta root loop. -/
theorem rootFold_ab_top (ab : Val → Move → Val) :
    ∀ (l : List Move) (om : Option Move) (a : Val),
      (l.foldl (rootABStep ab) (om, ⊤, a)).2.1 = ⊤ := by
  intro l
  induction l with
  | nil => intro om a; rfl
  | cons mv t ih =>
    intro om a
    rw [List.foldl_cons, rootABStep_neg ab om ⊤ a mv (not_lt.mpr le_top)]
    exact ih om (max a ⊤)

/-- On a black root the alpha-beta root loop with exact-bracketing children
computes the exact running maximum: the state keeps `alpha = bestVal =`
the exact maximum of the candidates scanned so far, so each child is
searched in the window (current max, +inf) and its bracketed value decides
the comparison `val > bestVal` exactly as the true value would. -/
theorem rootFold_ab_snd (cv : Move → Val) (ab : Val → Move → Val)
    (hchild : ∀ a mv, a < ⊤ → ThreeCases (ab a mv) (cv mv) a ⊤) :
    ∀ (l : List Move) (om : Option Move) (P : Val),
      (l.foldl (rootABStep ab) (om, P, P)).2.1 =
        l.foldl (fun w mv => max w (cv mv)) P := by
  intro l
  induction l with
  | nil => intro om P; rfl
  | cons mv t ih =>
    intro om P
    rw [List.foldl_cons, List.foldl_cons]
    by_cases htop : P = ⊤
    · subst htop
      rw [rootABStep_neg ab om ⊤ ⊤ mv (not_lt.mpr le_top), max_self,
        max_eq_left (le_top : cv mv ≤ ⊤)]
      exact ih om ⊤
    · have hlt : P < ⊤ := lt_top_iff_ne_top.mpr htop
      have hch := hchild P mv hlt
      by_cases hm1 : cv mv ≤ P
      · have hval : ab P mv ≤ P := hch.1 hm1
        rw [rootABStep_neg ab om P P mv (not_lt.mpr hval), max_self, max_eq_left hm1]
        exact ih om P
      · push_neg at hm1
        by_cases hm2 : cv mv < ⊤
        · have hval : ab P mv = cv mv := hch.2.1 hm1 hm2
          have hgt : P < ab P mv := by rw [hval]; exact hm1
          rw [rootABStep_pos ab om P P mv hgt, hval, max_eq_right (le_of_lt hm1)]
          exact ih (some mv) (cv mv)
        · push_neg at hm2
          have hcvtop : cv mv = ⊤ := top_le_iff.mp hm2
          have hval : ab P mv = ⊤ := top_le_iff.mp (hch.2.2 hm2)
          have hgt : P < ab P mv := by rw [hval]; exact hlt
          rw [rootABStep_pos ab om P P mv hgt, hval, hcvtop, max_eq_right le_top]
          exact ih (some mv) ⊤

/-- ChooseMove with the Minimax strategy returns the exact root value. -/
theorem chooseMoveVal_minimax (b : GameBoard) (mp : ℕ) :
    ((mkSearchToolBox "Minimax" mp).ChooseMove b).map Prod.snd =
      Except.ok (rootExactVal b mp) := by
  simp only [SearchToolBox.ChooseMove, mkSearchToolBox, rootExactVal]
  by_cases hleg : b.GenerateLegalMoves b.PlayerToMove = []
  · rw [if_pos hleg, if_pos hleg]
    rfl
  · rw [if_neg hleg, if_neg hleg, if_pos trivial]
    rw [if_neg (show ¬ ((("Minimax" : String) == "AlphaBetaOrdering") = true) from by decide)]
    by_cases hp : b.PlayerToMove = Player.b
    · rw [if_pos hp, if_pos hp]
      show Except.ok ((b.GenerateLegalMoves b.PlayerToMove).foldl
          (rootMinimaxStep (fun mv =>
            minimaxValue (mp - 1) false (b.ApplyMove mv) b.PlayerToMove))
          ((none : Option Move), ⊥)).2 = _
      rw [rootFold_minimax_snd]
    · rw [if_neg hp, if_neg hp]
      show Except.ok ((b.GenerateLegalMoves b.PlayerToMove).foldl
          (rootMinimaxStep (fun mv =>
            minimaxValue (mp - 1) false (b.ApplyMove mv) b.PlayerToMove))
          ((none : Option Move), ⊤)).2 = _
      rw [rootFold_minimax_snd, foldl_max_top]

/-- ChooseMove with the AlphaBeta strategy returns the exact root value. -/
theorem chooseMoveVal_ab (b : GameBoard) (mp : ℕ) :
    ((mkSearchToolBox "AlphaBeta" mp).ChooseMove b).map Prod.snd =
      Except.ok (rootExactVal b mp) := by
  simp only [SearchToolBox.ChooseMove, mkSearchToolBox, rootExactVal]
  by_cases hleg : b.GenerateLegalMoves b.PlayerToMove = []
  · rw [if_pos hleg, if_pos hleg]
    rfl
  · rw [if_neg hleg, if_neg hleg,
      if_neg (show ¬ (("AlphaBeta" : String) = "Minimax") from by decide), if_pos trivial]
    rw [if_neg (show ¬ ((("AlphaBeta" : String) == "AlphaBetaOrdering") = true) from by decide)]
    by_cases hp : b.PlayerToMove = Player.b
    · rw [if_pos hp, if_pos hp]
      show Except.ok ((b.GenerateLegalMoves b.PlayerToMove).foldl
          (rootABStep (fun a mv =>
            alphaBetaValue (mp - 1) false (b.ApplyMove mv) a ⊤ b.PlayerToMove false))
          ((none : Option Move), ⊥, ⊥)).2.1 = _
      rw [rootFold_ab_snd
        (fun mv => minimaxValue (mp - 1) false (b.ApplyMove mv) b.PlayerToMove)
        (fun a mv => alphaBetaValue (mp - 1) false (b.ApplyMove mv) a ⊤ b.PlayerToMove false)
        (fun a mv ha => alphaBeta_bracket (mp - 1) false (b.ApplyMove mv) a ⊤
          b.PlayerToMove false ha)]
    · rw [if_neg hp, if_neg hp]
      show Except.ok ((b.GenerateLegalMoves b.PlayerToMove).foldl
          (rootABStep (fun a mv =>
            alphaBetaValue (mp - 1) false (b.ApplyMove mv) a ⊤ b.PlayerToMove false))
          ((none : Option Move), ⊤, ⊥)).2.1 = _
      rw [rootFold_ab_top]

/-- ChooseMove with the AlphaBetaOrdering strategy returns the exact root
value: the root ordering only permutes the candidate list and the running
maximum is permutation-invariant. -/
theorem chooseMoveVal_abo (b : GameBoard) (mp : ℕ) :
    ((mkSearchToolBox "AlphaBetaOrdering" mp).ChooseMove b).map Prod.snd =
      Except.ok (rootExactVal b mp) := by
  simp only [SearchToolBox.ChooseMove, mkSearchToolBox, rootExactVal]
  by_cases hleg : b.GenerateLegalMoves b.PlayerToMove = []
  · rw [if_pos hleg, if_pos hleg]
    rfl
  · rw [if_neg hleg, if_neg hleg,
      if_neg (show ¬ (("AlphaBetaOrdering" : String) = "Minimax") from by decide),
      if_neg (show ¬ (("AlphaBetaOrdering" : String) = "AlphaBeta") from by decide),
      if_pos trivial]
    rw [if_pos (show ((("AlphaBetaOrdering" : String) == "AlphaBetaOrdering") = true)
      from by decide)]
    by_cases hp : b.PlayerToMove = Player.b
    · rw [if_pos hp, if_pos hp]
      show Except.ok ((orderDesc b b.PlayerToMove (b.GenerateLegalMoves b.PlayerToMove)).foldl
          (rootABStep (fun a mv =>
            alphaBetaValue (mp - 1) false (b.ApplyMove mv) a ⊤ b.PlayerToMove true))
          ((none : Option Move), ⊥, ⊥)).2.1 = _
      rw [rootFold_ab_snd
        (fun mv => minimaxValue (mp - 1) false (b.ApplyMove mv) b.PlayerToMove)
        (fun a mv => alphaBetaValue (mp - 1) false (b.ApplyMove mv) a ⊤ b.PlayerToMove true)
        (fun a mv ha => alphaBeta_bracket (mp - 1) false (b.ApplyMove mv) a ⊤
          b.PlayerToMove true ha)]
      exact congrArg Except.ok (foldl_max_perm
        (fun mv => minimaxValue (mp - 1) false (b.ApplyMove mv) b.PlayerToMove)
        (orderDesc_perm b b.PlayerToMove (b.GenerateLegalMoves b.PlayerToMove)) ⊥)
    · rw [if_neg hp, if_neg hp]
      show Except.ok ((orderDesc b b.PlayerToMove (b.GenerateLegalMoves b.PlayerToMove)).foldl
          (rootABStep (fun a mv =>
            alphaBetaValue (mp - 1) false (b.ApplyMove mv) a ⊤ b.PlayerToMove true))
          ((none : Option Move), ⊤, ⊥)).2.1 = _
      rw [rootFold_ab_top]

/-- C1: for every board and every fixed ply limit, run with an unlimited
time budget, the three strategies Minimax, AlphaBeta and AlphaBetaOrdering
return the same best-move value from ChooseMove (the moves themselves may
differ under ties). -/
theorem strategies_same_value (b : GameBoard) (mp : ℕ) :
    ((mkSearchToolBox "Minimax" mp).ChooseMove b).map Prod.snd =
      ((mkSearchToolBox "AlphaBeta" mp).ChooseMove b).map Prod.snd ∧
    ((mkSearchToolBox "AlphaBeta" mp).ChooseMove b).map Prod.snd =
      ((mkSearchToolBox "AlphaBetaOrdering" mp).ChooseMove b).map Prod.snd := by
  constructor
  · rw [chooseMoveVal_minimax, chooseMoveVal_ab]
  · rw [chooseMoveVal_ab, chooseMoveVal_abo]
